import Mathlib

/-!
# Verification of the flight-queue core (Tarea2)

Shallow embedding of `src/Tarea2/models.py` (class `ListaVuelos` over the
`Vuelo` ORM model) and the relevant parts of `src/Tarea2/main.py`.

Modelling notes (see §9 of the design document, which recommends exactly this
arena translation):
* SQLAlchemy keeps one shared object per row (identity map), so a `Nodo`'s
  `vuelo` attribute and the persisted row are the same object.  We therefore
  represent the store as a list of `Vuelo` rows (in creation/scan order) and
  the in-memory chain as the list of record ids from `cabeza` to `cola`;
  `cabeza`/`cola` are the chain's endpoints in every code path of the source.
* `_actualizar_bd` mutates the shared object and commits; a failed commit is
  rolled back (the object's attributes revert to the stored values) and the
  helper returns `False`, a value every caller discards.  The boolean
  parameter `wok` below chooses which of the two outcomes the store produces
  for the commits issued during one call.
* All record creation happens in `main.py` (`db.add`/`commit` before any list
  operation), so every `_actualizar_bd` call inside `ListaVuelos` targets a
  row that is already present in the store; `session.add` of an
  already-persistent object is a no-op, hence `actualizar_bd` below is a
  pure by-id update of the row list.
-/

namespace Tarea2

/-- `EstadoVuelo` enumeration from models.py (lines 11-14). -/
inductive EstadoVuelo
  | programado
  | emergencia
  | retrasado
deriving DecidableEq

/-- The `Vuelo` ORM model (models.py lines 16-29): flight attributes plus the
two optional link columns `anterior_id`/`siguiente_id` and the unused
`posicion` column.  `hora` (a DateTime) is modelled as a `Nat` timestamp. -/
structure Vuelo where
  id : Nat
  codigo : String
  estado : EstadoVuelo
  hora : Nat
  origen : String
  destino : String
  posicion : Option Nat
  anterior_id : Option Nat
  siguiente_id : Option Nat
deriving DecidableEq

instance : Inhabited Vuelo := ⟨⟨0, "", .programado, 0, "", "", none, none, none⟩⟩

/-- State of a `ListaVuelos` instance together with its session's store:
`chain` is the sequence of record ids wrapped by the nodes from `cabeza` to
`cola` (the source's `cabeza`/`cola` pointers are always the endpoints of this
sequence), `size` is the separately maintained `self.size` counter, and `db`
is the store's row list in creation (scan) order. -/
structure ListaVuelos where
  chain : List Nat
  size : Nat
  db : List Vuelo
deriving DecidableEq

/-- The engine state over an empty store (`__init__` with an empty DB). -/
def vacia : ListaVuelos := ⟨[], 0, []⟩

/-- Point lookup of a row by id (the session identity map / `vuelos_dict`). -/
def getVuelo (db : List Vuelo) (i : Nat) : Option Vuelo :=
  db.find? (fun v => v.id == i)

/-- The field updates performed by `_actualizar_bd` (models.py lines 98-101):
a link column is assigned only when the corresponding argument is not `None`,
so a link field can never be reset to `None` through this helper. -/
def updEnlaces (v : Vuelo) (a s : Option Nat) : Vuelo :=
  { v with
    anterior_id := match a with | some x => some x | none => v.anterior_id
    siguiente_id := match s with | some x => some x | none => v.siguiente_id }

/-- `_actualizar_bd` (models.py lines 95-109).  `wok` is the outcome of the
`session.commit()`: on success the row with the given id carries the guarded
field updates; on failure the session is rolled back, so the store (and the
shared object) are unchanged.  The source returns `True`/`False`; every caller
discards that result, so it is dropped here. -/
def actualizar_bd (wok : Bool) (db : List Vuelo) (vid : Nat)
    (a s : Option Nat) : List Vuelo :=
  if wok then db.map (fun v => if v.id == vid then updEnlaces v a s else v)
  else db

/-- `insertar_al_frente` (models.py lines 111-130), by record id.  The source
receives the shared ORM object; only its `id` is consulted for link updates
and the row itself already lives in the store. -/
def insertar_al_frente (wok : Bool) (st : ListaVuelos) (vid : Nat) :
    ListaVuelos :=
  match st.chain with
  | [] =>
    { chain := [vid], size := st.size + 1
      db := actualizar_bd wok st.db vid none none }
  | h :: t =>
    let db1 := actualizar_bd wok st.db vid none (some h)
    let db2 := actualizar_bd wok db1 h (some vid) none
    { chain := vid :: h :: t, size := st.size + 1, db := db2 }

/-- `insertar_al_final` (models.py lines 132-151), by record id. -/
def insertar_al_final (wok : Bool) (st : ListaVuelos) (vid : Nat) :
    ListaVuelos :=
  match st.chain.getLast? with
  | none =>
    { chain := [vid], size := st.size + 1
      db := actualizar_bd wok st.db vid none none }
  | some c =>
    let db1 := actualizar_bd wok st.db vid (some c) none
    let db2 := actualizar_bd wok db1 c none (some vid)
    { chain := st.chain ++ [vid], size := st.size + 1, db := db2 }

/-- `obtener_primero` (models.py lines 153-157): returns `None` on an empty
list, otherwise the record wrapped by `cabeza`.  No state is produced: the
source only reads. -/
def obtener_primero (st : ListaVuelos) : Option Vuelo :=
  st.chain.head?.bind (getVuelo st.db)

/-- `obtener_ultimo` (models.py lines 159-163). -/
def obtener_ultimo (st : ListaVuelos) : Option Vuelo :=
  st.chain.getLast?.bind (getVuelo st.db)

/-- `longitud` (models.py lines 165-167). -/
def longitud (st : ListaVuelos) : Nat := st.size

/-- `listar_todos` (models.py lines 261-270): walk the nodes from `cabeza`
collecting the wrapped records. -/
def listar_todos (st : ListaVuelos) : List Vuelo :=
  st.chain.filterMap (getVuelo st.db)

/-- The `ValueError`s raised by `ListaVuelos` (distinguished by message). -/
inductive VueloError
  | posicionFueraDeRango   -- "Posición ... fuera de rango"
  | cantidadNoCoincide     -- "La cantidad de IDs no coincide con el tamaño"
  | idNoExiste             -- "Uno o más IDs proporcionados no existen"
deriving DecidableEq

/-- `insertar_en_posicion` (models.py lines 169-202).  Position is an `Int`
(the source validates `posicion < 0`).  An exception leaves the structure
untouched, hence the result pairs the outcome with the state.  The final
wildcard branch is unreachable whenever `size` equals the chain length (there
the source would crash dereferencing a missing node). -/
def insertar_en_posicion (wok : Bool) (st : ListaVuelos) (vid : Nat)
    (posicion : Int) : Except VueloError Unit × ListaVuelos :=
  if posicion < 0 || posicion > (st.size : Int) then
    (.error .posicionFueraDeRango, st)
  else if posicion == 0 then
    (.ok (), insertar_al_frente wok st vid)
  else if posicion == (st.size : Int) then
    (.ok (), insertar_al_final wok st vid)
  else
    let p := posicion.toNat
    match st.chain[p-1]?, st.chain[p]? with
    | some a, some b =>
      -- nuevo.anterior = actual.anterior, nuevo.siguiente = actual, then
      -- three _actualizar_bd calls, then node splicing (insert before index p)
      let db1 := actualizar_bd wok st.db vid (some a) (some b)
      let db2 := actualizar_bd wok db1 a none (some vid)
      let db3 := actualizar_bd wok db2 b (some vid) none
      (.ok (), { chain := st.chain.insertIdx p vid, size := st.size + 1
                 db := db3 })
    | _, _ => (.error .posicionFueraDeRango, st)

/-- `extraer_de_posicion` (models.py lines 204-259).  Note that the two
"reset to absent" updates (`anterior_id=None, siguiente_id=None`) are issued
but, because of `_actualizar_bd`'s not-`None` guards, change no field.  The
wildcard branches are unreachable whenever `size` equals the chain length. -/
def extraer_de_posicion (wok : Bool) (st : ListaVuelos) (posicion : Int) :
    Except VueloError Vuelo × ListaVuelos :=
  if posicion < 0 || posicion ≥ (st.size : Int) then
    (.error .posicionFueraDeRango, st)
  else if posicion == 0 then
    match st.chain with
    | [] => (.error .posicionFueraDeRango, st)   -- unreachable: size > 0
    | r :: t =>
      let db1 := match t with
        | [] => st.db                 -- no new head: cola := None
        | h2 :: _ => actualizar_bd wok st.db h2 none none
      let db2 := actualizar_bd wok db1 r none none
      (.ok ((getVuelo db2 r).getD default), { chain := t, size := st.size - 1, db := db2 })
  else if posicion == (st.size : Int) - 1 then
    match st.chain.getLast? with
    | none => (.error .posicionFueraDeRango, st)   -- unreachable
    | some r =>
      let t := st.chain.dropLast
      let db1 := match t.getLast? with
        | none => st.db               -- no new tail: cabeza := None
        | some c2 => actualizar_bd wok st.db c2 none none
      let db2 := actualizar_bd wok db1 r none none
      (.ok ((getVuelo db2 r).getD default), { chain := t, size := st.size - 1, db := db2 })
  else
    let p := posicion.toNat
    match st.chain[p-1]?, st.chain[p]?, st.chain[p+1]? with
    | some a, some r, some b =>
      let db1 := actualizar_bd wok st.db a none (some b)
      let db2 := actualizar_bd wok db1 b (some a) none
      let db3 := actualizar_bd wok db2 r none none
      (.ok ((getVuelo db3 r).getD default),
       { chain := st.chain.eraseIdx p, size := st.size - 1, db := db3 })
    | _, _, _ => (.error .posicionFueraDeRango, st)

/-- The `while siguiente_id and siguiente_id in vuelos_dict` walk of
`_cargar_desde_bd` (models.py lines 73-85), returning the ids of the nodes
created after the head.  The loop exits when the pointer is `None`, when it is
`0` (a Python falsy int), or when the id is not a key of `vuelos_dict`.  The
source loop is unbounded; `fuel` counts the iterations we are willing to
unfold, and `none` means the loop has not finished within `fuel` iterations —
the concrete run reaches the returned list exactly when some fuel suffices. -/
def bucleSiguientes (db : List Vuelo) : Nat → Option Nat → Option (List Nat)
  | _, none => some []
  | fuel, some i =>
    if i == 0 then some []
    else
      match getVuelo db i with
      | none => some []
      | some v =>
        match fuel with
        | 0 => none
        | fuel' + 1 => (bucleSiguientes db fuel' v.siguiente_id).map (i :: ·)

/-- `_cargar_desde_bd` (models.py lines 49-93): scan all rows, pick the first
row whose `anterior_id` is `None` as the head (falling back to the first
scanned row), then walk `siguiente_id` creating nodes; `size` is 1 plus the
number of loop iterations and `cola` is the last node reached (the chain's
last element).  `fuel` bounds the walk as in `bucleSiguientes`.  The
`except` clause of the source only fires on store errors and is not
modelled. -/
def cargar_desde_bd (db : List Vuelo) (fuel : Nat) : Option ListaVuelos :=
  match db with
  | [] => some { chain := [], size := 0, db := db }
  | v0 :: _ =>
    let cabeza := (db.find? (fun v => v.anterior_id == none)).getD v0
    match bucleSiguientes db fuel cabeza.siguiente_id with
    | none => none
    | some rest =>
      some { chain := cabeza.id :: rest, size := 1 + rest.length, db := db }

/-- `reordenar` (models.py lines 272-299): length check, membership check
against the dictionary built from the current chain, then drain the list and
`insertar_al_final` each record in the given order. -/
def reordenar (wok : Bool) (st : ListaVuelos) (orden_ids : List Nat) :
    Except VueloError (List Vuelo) × ListaVuelos :=
  if orden_ids.length != st.size then (.error .cantidadNoCoincide, st)
  else if !(orden_ids.all (fun i => st.chain.contains i)) then
    (.error .idNoExiste, st)
  else
    let st0 : ListaVuelos := { st with chain := [], size := 0 }
    let stF := orden_ids.foldl (fun s i => insertar_al_final wok s i) st0
    (.ok (listar_todos stF), stF)

/-- The request body of the creation endpoints (`VueloBase` in main.py):
flight attributes without id or link fields. -/
structure VueloData where
  codigo : String
  estado : EstadoVuelo
  hora : Nat
  origen : String
  destino : String
deriving DecidableEq

/-- Modelled from the spec: the Record Store "is assumed to assign a stable
unique identifier per record on creation" (§2); SQLite's integer primary key
assigns max-rowid-plus-one.  Fresh ids are therefore positive and distinct
from every id already in the store. -/
def freshId (db : List Vuelo) : Nat :=
  db.foldr (fun v m => max v.id m) 0 + 1

/-- The row committed by `db.add(nuevo_vuelo); db.commit()` in main.py:
attributes from the request, store-assigned id, link columns `NULL`. -/
def nuevoVuelo (db : List Vuelo) (d : VueloData) : Vuelo :=
  { id := freshId db, codigo := d.codigo, estado := d.estado, hora := d.hora
    origen := d.origen, destino := d.destino
    posicion := none, anterior_id := none, siguiente_id := none }

/-- `agregar_vuelo` (main.py lines 66-96): create and commit the record, then
insert it at the front when its status is `emergencia` and at the back
otherwise.  Returns the created record and the new engine state. -/
def agregar_vuelo (wok : Bool) (st : ListaVuelos) (d : VueloData) :
    Vuelo × ListaVuelos :=
  let nuevo := nuevoVuelo st.db d
  let st1 : ListaVuelos := { st with db := st.db ++ [nuevo] }
  let st2 :=
    if d.estado == EstadoVuelo.emergencia then
      insertar_al_frente wok st1 nuevo.id
    else
      insertar_al_final wok st1 nuevo.id
  (nuevo, st2)

/-- One insertion request against the API layer: front, back, or at a
position. -/
inductive OpIns
  | front (d : VueloData)
  | back (d : VueloData)
  | atPos (d : VueloData) (posicion : Int)

/-- A run of insertion requests with all store writes succeeding: each step
creates and commits the record (as the endpoints in main.py do) and then calls
the corresponding `ListaVuelos` insertion; a rejected position aborts the run
(`none`), matching main.py's pre-check that refuses the request before
creating the row. -/
def runIns : ListaVuelos → List OpIns → Option ListaVuelos
  | st, [] => some st
  | st, .front d :: rest =>
    let v := nuevoVuelo st.db d
    runIns (insertar_al_frente true { st with db := st.db ++ [v] } v.id) rest
  | st, .back d :: rest =>
    let v := nuevoVuelo st.db d
    runIns (insertar_al_final true { st with db := st.db ++ [v] } v.id) rest
  | st, .atPos d p :: rest =>
    let v := nuevoVuelo st.db d
    match insertar_en_posicion true { st with db := st.db ++ [v] } v.id p with
    | (.ok _, st2) => runIns st2 rest
    | (.error _, _) => none

/-! ## The mutating operations with independent per-commit outcomes

Each `_actualizar_bd` call commits separately, so in the source the store
writes of one operation can fail independently — e.g. the first neighbour
update can commit while the second fails, leaving the store partially
updated.  The following generalisations give every commit of a call its own
outcome Boolean; the single-`wok` operations above are exactly their
diagonal instances (all commits of the call share one outcome), see the
`*_eq_G` lemmas below. -/

/-- `insertar_al_frente` (models.py lines 111-130) with independent commit
outcomes: `w1` for the new record's link write, `w2` for the old head's
`anterior_id` update (the empty-queue branch issues a single commit, `w1`). -/
def insertar_al_frenteG (w1 w2 : Bool) (st : ListaVuelos) (vid : Nat) :
    ListaVuelos :=
  match st.chain with
  | [] =>
    { chain := [vid], size := st.size + 1
      db := actualizar_bd w1 st.db vid none none }
  | h :: t =>
    let db1 := actualizar_bd w1 st.db vid none (some h)
    let db2 := actualizar_bd w2 db1 h (some vid) none
    { chain := vid :: h :: t, size := st.size + 1, db := db2 }

/-- `insertar_al_final` (models.py lines 132-151) with independent commit
outcomes: `w1` for the new record's link write, `w2` for the old tail's
`siguiente_id` update. -/
def insertar_al_finalG (w1 w2 : Bool) (st : ListaVuelos) (vid : Nat) :
    ListaVuelos :=
  match st.chain.getLast? with
  | none =>
    { chain := [vid], size := st.size + 1
      db := actualizar_bd w1 st.db vid none none }
  | some c =>
    let db1 := actualizar_bd w1 st.db vid (some c) none
    let db2 := actualizar_bd w2 db1 c none (some vid)
    { chain := st.chain ++ [vid], size := st.size + 1, db := db2 }

/-- `insertar_en_posicion` (models.py lines 169-202) with independent commit
outcomes `w1`, `w2`, `w3` for its (up to) three `_actualizar_bd` calls, in
source order. -/
def insertar_en_posicionG (w1 w2 w3 : Bool) (st : ListaVuelos) (vid : Nat)
    (posicion : Int) : Except VueloError Unit × ListaVuelos :=
  if posicion < 0 || posicion > (st.size : Int) then
    (.error .posicionFueraDeRango, st)
  else if posicion == 0 then
    (.ok (), insertar_al_frenteG w1 w2 st vid)
  else if posicion == (st.size : Int) then
    (.ok (), insertar_al_finalG w1 w2 st vid)
  else
    let p := posicion.toNat
    match st.chain[p-1]?, st.chain[p]? with
    | some a, some b =>
      let db1 := actualizar_bd w1 st.db vid (some a) (some b)
      let db2 := actualizar_bd w2 db1 a none (some vid)
      let db3 := actualizar_bd w3 db2 b (some vid) none
      (.ok (), { chain := st.chain.insertIdx p vid, size := st.size + 1
                 db := db3 })
    | _, _ => (.error .posicionFueraDeRango, st)

/-- `extraer_de_posicion` (models.py lines 204-259) with independent commit
outcomes `w1`, `w2`, `w3` for its (up to) three `_actualizar_bd` calls, in
source order; the boundary branches issue at most two. -/
def extraer_de_posicionG (w1 w2 w3 : Bool) (st : ListaVuelos)
    (posicion : Int) : Except VueloError Vuelo × ListaVuelos :=
  if posicion < 0 || posicion ≥ (st.size : Int) then
    (.error .posicionFueraDeRango, st)
  else if posicion == 0 then
    match st.chain with
    | [] => (.error .posicionFueraDeRango, st)   -- unreachable: size > 0
    | r :: t =>
      let db1 := match t with
        | [] => st.db
        | h2 :: _ => actualizar_bd w1 st.db h2 none none
      let db2 := actualizar_bd w2 db1 r none none
      (.ok ((getVuelo db2 r).getD default),
       { chain := t, size := st.size - 1, db := db2 })
  else if posicion == (st.size : Int) - 1 then
    match st.chain.getLast? with
    | none => (.error .posicionFueraDeRango, st)   -- unreachable
    | some r =>
      let t := st.chain.dropLast
      let db1 := match t.getLast? with
        | none => st.db
        | some c2 => actualizar_bd w1 st.db c2 none none
      let db2 := actualizar_bd w2 db1 r none none
      (.ok ((getVuelo db2 r).getD default),
       { chain := t, size := st.size - 1, db := db2 })
  else
    let p := posicion.toNat
    match st.chain[p-1]?, st.chain[p]?, st.chain[p+1]? with
    | some a, some r, some b =>
      let db1 := actualizar_bd w1 st.db a none (some b)
      let db2 := actualizar_bd w2 db1 b (some a) none
      let db3 := actualizar_bd w3 db2 r none none
      (.ok ((getVuelo db3 r).getD default),
       { chain := st.chain.eraseIdx p, size := st.size - 1, db := db3 })
    | _, _, _ => (.error .posicionFueraDeRango, st)

/-- The re-insertion loop of `reordenar` with per-iteration commit outcomes:
`k` numbers the iterations and `w k` gives the outcome pair of the (up to)
two commits issued by the `k`-th `insertar_al_final` call. -/
def foldFinalG (w : Nat → Bool × Bool) :
    Nat → List Nat → ListaVuelos → ListaVuelos
  | _, [], s => s
  | k, i :: rest, s =>
    foldFinalG w (k + 1) rest (insertar_al_finalG (w k).1 (w k).2 s i)

/-- `reordenar` (models.py lines 272-299) with independent commit outcomes:
the rebuild issues two commits per re-inserted record, and `w k` gives the
outcome pair for the `k`-th insertion of the loop. -/
def reordenarG (w : Nat → Bool × Bool) (st : ListaVuelos)
    (orden_ids : List Nat) : Except VueloError (List Vuelo) × ListaVuelos :=
  if orden_ids.length != st.size then (.error .cantidadNoCoincide, st)
  else if !(orden_ids.all (fun i => st.chain.contains i)) then
    (.error .idNoExiste, st)
  else
    let st0 : ListaVuelos := { st with chain := [], size := 0 }
    let stF := foldFinalG w 0 orden_ids st0
    (.ok (listar_todos stF), stF)

/-! ## Specification predicates and concrete inputs -/

/-- The engine's `self.cabeza` pointer: the first node of the chain. -/
def cabeza (st : ListaVuelos) : Option Nat := st.chain.head?

/-- The engine's `self.cola` pointer: the last node of the chain. -/
def cola (st : ListaVuelos) : Option Nat := st.chain.getLast?

/-- First id of `l`, or the terminal value `n` when `l` is empty (the value a
`siguiente_id` pointing "into `l` and then `n`" must carry). -/
def headOr (l : List Nat) (n : Option Nat) : Option Nat :=
  match l with
  | [] => n
  | x :: _ => some x

/-- Last id of `l`, or the fallback `p` when `l` is empty. -/
def lastOr (l : List Nat) (p : Option Nat) : Option Nat :=
  match l.getLast? with
  | none => p
  | some a => some a

/-- The persisted row of id `i` exists and carries exactly the link fields
`a` (previous) and `s` (next). -/
def rowLinks (db : List Vuelo) (i : Nat) (a s : Option Nat) : Bool :=
  match getVuelo db i with
  | some v => v.anterior_id == a && v.siguiente_id == s
  | none => false

/-- The persisted link fields of the ids in `l` encode exactly the chain
segment that starts after (optional) predecessor `prev` and is followed by
(optional) successor terminal `nxt`: each row's `anterior_id` is the previous
id and its `siguiente_id` the next id of the segment. -/
def segOk (db : List Vuelo) : Option Nat → List Nat → Option Nat → Bool
  | _, [], _ => true
  | prev, i :: rest, nxt =>
    rowLinks db i prev (headOr rest nxt) && segOk db (some i) rest nxt

/-- Invariant claimed in §3 of the design document: the persisted link
fields agree with the in-memory chain (head's `prev_id` absent, tail's
`next_id` absent, and adjacent pairs doubly linked). -/
def enlacesOk (st : ListaVuelos) : Bool :=
  segOk st.db none st.chain none

/-- Forward/backward adjacency only (no head/tail absence conditions): for
every adjacent pair `(x, y)` of the id list, `x`'s row has
`siguiente_id = y` and `y`'s row has `anterior_id = x`; `prev` is the id
preceding the list, if any. -/
def adjFrom (db : List Vuelo) : Option Nat → List Nat → Bool
  | _, [] => true
  | none, y :: rest => adjFrom db (some y) rest
  | some x, y :: rest =>
    (match getVuelo db x, getVuelo db y with
     | some vx, some vy => vx.siguiente_id == some y && vy.anterior_id == some x
     | _, _ => false) && adjFrom db (some y) rest

/-- Well-formedness of an engine state as maintained by the source: `size`
is the chain length, node ids are pairwise distinct, and every node wraps a
row present in the store. -/
def wfBasica (st : ListaVuelos) : Prop :=
  st.size = st.chain.length ∧ st.chain.Nodup ∧
    ∀ i ∈ st.chain, (getVuelo st.db i).isSome

/-- The store mirrors the engine exactly: `size` is the chain length, the
stored rows are (up to scan order) precisely the chained records, ids are
unique and positive, and the persisted link fields encode the chain.  This
holds after any run of successful insertions starting from an empty store. -/
def Espejo (st : ListaVuelos) : Prop :=
  st.size = st.chain.length ∧
  List.Perm (st.db.map (·.id)) st.chain ∧
  (st.db.map (·.id)).Nodup ∧
  (∀ i ∈ st.chain, 0 < i) ∧
  segOk st.db none st.chain none = true

/-- The ids visited by the reconstruction walk within `fuel` iterations
(the observable prefix of the possibly non-terminating source loop). -/
def trazaSiguientes (db : List Vuelo) : Nat → Option Nat → List Nat
  | _, none => []
  | fuel, some i =>
    if i == 0 then []
    else
      match getVuelo db i with
      | none => []
      | some v =>
        match fuel with
        | 0 => []
        | fuel' + 1 => i :: trazaSiguientes db fuel' v.siguiente_id

/-- The head record `_cargar_desde_bd` selects: the first scanned row with
absent `anterior_id`, falling back to the first scanned row; `none` iff the
store is empty. -/
def cabezaSeleccionada (db : List Vuelo) : Option Vuelo :=
  match db with
  | [] => none
  | v0 :: _ => some ((db.find? (fun v => v.anterior_id == none)).getD v0)

/-- A store whose single record's `siguiente_id` points to itself: the
reconstruction walk never reaches an absent or missing id on it. -/
def vueloCiclico : Vuelo :=
  { id := 1, codigo := "Z", estado := .programado, hora := 0, origen := "O"
    destino := "D", posicion := none, anterior_id := some 1
    siguiente_id := some 1 }

/-- Request data used by the concrete scenarios (a Scheduled flight). -/
def datoA : VueloData := ⟨"A", .programado, 10, "X", "Y"⟩

/-- Request data used by the concrete scenarios (an Emergency flight). -/
def datoB : VueloData := ⟨"B", .emergencia, 11, "X", "Y"⟩

/-- Request data used by the concrete scenarios (a Scheduled flight). -/
def datoC : VueloData := ⟨"C", .programado, 12, "X", "Y"⟩

/-! ## Basic lemmas about the store operations -/

theorem updEnlaces_none_none (v : Vuelo) : updEnlaces v none none = v := rfl

theorem updEnlaces_id_eq (v : Vuelo) (a s : Option Nat) :
    (updEnlaces v a s).id = v.id := rfl

theorem actualizar_bd_false (db : List Vuelo) (vid : Nat) (a s : Option Nat) :
    actualizar_bd false db vid a s = db := rfl

/-- A commit with both link arguments `None` changes no row. -/
theorem actualizar_bd_noop (wok : Bool) (db : List Vuelo) (vid : Nat) :
    actualizar_bd wok db vid none none = db := by
  cases wok
  · rfl
  · simp [actualizar_bd, updEnlaces_none_none]

theorem actualizar_bd_true (db : List Vuelo) (vid : Nat) (a s : Option Nat) :
    actualizar_bd true db vid a s
      = db.map (fun v => if v.id == vid then updEnlaces v a s else v) := rfl

theorem getVuelo_cons (v : Vuelo) (rest : List Vuelo) (i : Nat) :
    getVuelo (v :: rest) i
      = if (v.id == i) = true then some v else getVuelo rest i := by
  by_cases hb : (v.id == i) = true
  · rw [if_pos hb]
    exact List.find?_cons_of_pos _ hb
  · rw [if_neg hb]
    exact List.find?_cons_of_neg _ (by simpa using hb)

/-- `_actualizar_bd` never changes the sequence of stored ids. -/
theorem actualizar_map_id (wok : Bool) (db : List Vuelo) (vid : Nat)
    (a s : Option Nat) :
    (actualizar_bd wok db vid a s).map (·.id) = db.map (·.id) := by
  cases wok
  · rfl
  · rw [actualizar_bd_true, List.map_map]
    apply List.map_congr_left
    intro v _
    show (if v.id == vid then updEnlaces v a s else v).id = v.id
    split <;> rfl

theorem getVuelo_actualizar_ne (wok : Bool) (db : List Vuelo) {i j : Nat}
    (a s : Option Nat) (h : i ≠ j) :
    getVuelo (actualizar_bd wok db j a s) i = getVuelo db i := by
  cases wok
  · rfl
  · induction db with
    | nil => rfl
    | cons v rest ih =>
      rw [actualizar_bd_true] at ih ⊢
      rw [List.map_cons]
      by_cases hj : v.id = j
      · rw [if_pos (by simpa using hj), getVuelo_cons, getVuelo_cons,
          if_neg (by simp [updEnlaces_id_eq, hj, Ne.symm h]),
          if_neg (by simp [hj, Ne.symm h])]
        exact ih
      · rw [if_neg (by simpa using hj), getVuelo_cons, getVuelo_cons]
        by_cases hvi : (v.id == i) = true
        · rw [if_pos hvi, if_pos hvi]
        · rw [if_neg hvi, if_neg hvi]
          exact ih

theorem getVuelo_actualizar_self (db : List Vuelo) (i : Nat)
    (a s : Option Nat) :
    getVuelo (actualizar_bd true db i a s) i
      = (getVuelo db i).map (fun v => updEnlaces v a s) := by
  induction db with
  | nil => rfl
  | cons v rest ih =>
    rw [actualizar_bd_true] at ih ⊢
    rw [List.map_cons]
    by_cases hvi : v.id = i
    · rw [if_pos (by simpa using hvi), getVuelo_cons, getVuelo_cons,
        if_pos (by simp [updEnlaces_id_eq, hvi]), if_pos (by simpa using hvi)]
      rfl
    · rw [if_neg (by simpa using hvi), getVuelo_cons, getVuelo_cons,
        if_neg (by simpa using hvi), if_neg (by simpa using hvi)]
      exact ih

theorem getVuelo_isSome_actualizar (wok : Bool) (db : List Vuelo)
    (i j : Nat) (a s : Option Nat) :
    (getVuelo (actualizar_bd wok db j a s) i).isSome
      = (getVuelo db i).isSome := by
  by_cases h : i = j
  · subst h
    cases wok
    · rfl
    · rw [getVuelo_actualizar_self]
      cases getVuelo db i <;> rfl
  · rw [getVuelo_actualizar_ne wok db a s h]

/-- Updating an id that is not stored changes nothing. -/
theorem actualizar_not_mem (wok : Bool) (db : List Vuelo) (i : Nat)
    (a s : Option Nat) (h : i ∉ db.map (·.id)) :
    actualizar_bd wok db i a s = db := by
  cases wok
  · rfl
  · induction db with
    | nil => rfl
    | cons v rest ih =>
      simp only [List.map_cons, List.mem_cons] at h
      push_neg at h
      rw [actualizar_bd_true] at ih ⊢
      rw [List.map_cons, if_neg (by simpa using Ne.symm h.1), ih h.2]

theorem getVuelo_of_mem (db : List Vuelo) (v : Vuelo) (hmem : v ∈ db)
    (hnd : (db.map (·.id)).Nodup) : getVuelo db v.id = some v := by
  induction db with
  | nil => cases hmem
  | cons w rest ih =>
    simp only [List.map_cons, List.nodup_cons] at hnd
    rcases List.mem_cons.1 hmem with h | h
    · subst h
      rw [getVuelo_cons, if_pos (by simp)]
    · have hne : w.id ≠ v.id := by
        intro he
        apply hnd.1
        rw [he]
        exact List.mem_map_of_mem (·.id) h
      rw [getVuelo_cons, if_neg (by simpa using hne)]
      exact ih h hnd.2

/-- Writing values a row already carries is a no-op on the store. -/
theorem actualizar_write_same (db : List Vuelo) (i : Nat) (a s : Option Nat)
    (v : Vuelo) (hnd : (db.map (·.id)).Nodup) (hv : getVuelo db i = some v)
    (hupd : updEnlaces v a s = v) :
    actualizar_bd true db i a s = db := by
  induction db with
  | nil => simp [getVuelo] at hv
  | cons w rest ih =>
    simp only [List.map_cons, List.nodup_cons] at hnd
    rw [actualizar_bd_true] at ih ⊢
    rw [List.map_cons]
    by_cases hw : w.id = i
    · rw [getVuelo_cons, if_pos (by simpa using hw)] at hv
      have hv' : w = v := Option.some.inj hv
      subst hv'
      rw [if_pos (by simpa using hw), hupd]
      have hmem : i ∉ rest.map (·.id) := hw ▸ hnd.1
      have := actualizar_not_mem true rest i a s hmem
      rw [actualizar_bd_true] at this
      rw [this]
    · rw [getVuelo_cons, if_neg (by simpa using hw)] at hv
      rw [if_neg (by simpa using hw), ih hnd.2 hv]

theorem getVuelo_append (db l2 : List Vuelo) (i : Nat) :
    getVuelo (db ++ l2) i = (getVuelo db i).or (getVuelo l2 i) :=
  List.find?_append

/-! ## Lemmas about link segments -/

theorem rowLinks_iff (db : List Vuelo) (i : Nat) (a s : Option Nat) :
    rowLinks db i a s = true
      ↔ ∃ v, getVuelo db i = some v ∧ v.anterior_id = a ∧ v.siguiente_id = s := by
  unfold rowLinks
  cases h : getVuelo db i <;> simp

theorem segOk_cons_iff (db : List Vuelo) (p n : Option Nat) (x : Nat)
    (rest : List Nat) :
    segOk db p (x :: rest) n = true
      ↔ rowLinks db x p (headOr rest n) = true
          ∧ segOk db (some x) rest n = true := by
  simp [segOk, Bool.and_eq_true]

/-- `segOk` only reads the rows of the ids it mentions. -/
theorem segOk_congr (db db2 : List Vuelo) (p n : Option Nat) (l : List Nat)
    (h : ∀ i ∈ l, getVuelo db2 i = getVuelo db i) :
    segOk db2 p l n = segOk db p l n := by
  induction l generalizing p with
  | nil => rfl
  | cons x rest ih =>
    simp only [segOk]
    have h1 : rowLinks db2 x p (headOr rest n) = rowLinks db x p (headOr rest n) := by
      unfold rowLinks
      rw [h x (List.mem_cons_self _ _)]
    rw [h1, ih (some x) (fun i hi => h i (List.mem_cons_of_mem _ hi))]

theorem headOr_append (xs l2 : List Nat) (n : Option Nat) :
    headOr (xs ++ l2) n = headOr xs (headOr l2 n) := by
  cases xs <;> rfl

theorem lastOr_cons (x : Nat) (xs : List Nat) (p : Option Nat) :
    lastOr (x :: xs) p = lastOr xs (some x) := by
  cases xs with
  | nil => rfl
  | cons y ys =>
    rcases hl : (y :: ys).getLast? with _ | a
    · rcases List.getLast?_eq_none_iff.1 hl
    · simp [lastOr, List.getLast?_cons_cons, hl]

theorem segOk_append (db : List Vuelo) (p n : Option Nat) (l1 l2 : List Nat) :
    segOk db p (l1 ++ l2) n
      = (segOk db p l1 (headOr l2 n) && segOk db (lastOr l1 p) l2 n) := by
  induction l1 generalizing p with
  | nil => simp [segOk, lastOr, List.getLast?]
  | cons x xs ih =>
    simp only [List.cons_append, segOk, List.append_eq]
    rw [ih (some x), headOr_append, lastOr_cons, Bool.and_assoc]

theorem segOk_present (db : List Vuelo) (p n : Option Nat) (l : List Nat)
    (h : segOk db p l n = true) : ∀ x ∈ l, (getVuelo db x).isSome := by
  induction l generalizing p with
  | nil => intro x hx; cases hx
  | cons y rest ih =>
    intro x hx
    rw [segOk_cons_iff] at h
    rcases List.mem_cons.1 hx with rfl | hx'
    · rcases (rowLinks_iff _ _ _ _).1 h.1 with ⟨v, hv, _, _⟩
      simp [hv]
    · exact ih (some y) h.2 x hx'

/-- Every id in the tail of a consistent segment has a row whose
`anterior_id` is present. -/
theorem segOk_tail_ant (db : List Vuelo) (q : Nat) (l : List Nat)
    (n : Option Nat) (h : segOk db (some q) l n = true) :
    ∀ x ∈ l, ∃ v w, getVuelo db x = some v ∧ v.anterior_id = some w := by
  induction l generalizing q with
  | nil => intro x hx; cases hx
  | cons y rest ih =>
    intro x hx
    rw [segOk_cons_iff] at h
    rcases List.mem_cons.1 hx with rfl | hx'
    · rcases (rowLinks_iff _ _ _ _).1 h.1 with ⟨v, hv, ha, _⟩
      exact ⟨v, q, hv, ha⟩
    · exact ih y h.2 x hx'

/-- A `find?` characterisation: a member satisfying the predicate that every
satisfying member equals is the result. -/
theorem find?_eq_some_unique {α : Type} (p : α → Bool) (l : List α) (a : α)
    (ha : a ∈ l) (hpa : p a = true)
    (huniq : ∀ x ∈ l, p x = true → x = a) : l.find? p = some a := by
  induction l with
  | nil => cases ha
  | cons x rest ih =>
    by_cases hx : p x = true
    · rw [List.find?_cons_of_pos _ hx]
      rw [huniq x (List.mem_cons_self _ _) hx]
    · rw [List.find?_cons_of_neg _ (by simpa using hx)]
      rcases List.mem_cons.1 ha with rfl | ha'
      · exact absurd hpa hx
      · exact ih ha' (fun x hx2 hp => huniq x (List.mem_cons_of_mem _ hx2) hp)

/-! ## Reconstruction lemmas -/

/-- If the rows of `rest` encode the chain segment following `prev`, the
reconstruction walk started on the segment's first id visits exactly `rest`
(given enough fuel). -/
theorem bucle_walk (db : List Vuelo) (rest : List Nat) :
    ∀ (fuel : Nat) (prev : Option Nat),
      segOk db prev rest none = true →
      (∀ i ∈ rest, 0 < i) →
      rest.length ≤ fuel →
      bucleSiguientes db fuel (headOr rest none) = some rest := by
  induction rest with
  | nil =>
    intro fuel prev _ _ _
    cases fuel <;> rfl
  | cons r rest' ih =>
    intro fuel prev hseg hpos hfuel
    rw [segOk_cons_iff] at hseg
    rcases (rowLinks_iff _ _ _ _).1 hseg.1 with ⟨v, hv, _, hs⟩
    have hr0 : (r == 0) = false := by
      simp
      exact (hpos r (List.mem_cons_self _ _)).ne'
    cases fuel with
    | zero => simp at hfuel
    | succ f =>
      show bucleSiguientes db (f + 1) (some r) = some (r :: rest')
      rw [bucleSiguientes, hr0]
      simp only [Bool.false_eq_true, if_false, hv]
      rw [hs, ih f (some r) hseg.2
        (fun i hi => hpos i (List.mem_cons_of_mem _ hi))
        (by simpa using Nat.le_of_succ_le_succ hfuel)]
      rfl

/-- On a mirror state the reconstruction procedure rebuilds exactly the
engine state it was saved from. -/
theorem cargar_espejo (st : ListaVuelos) (h : Espejo st) :
    cargar_desde_bd st.db (st.db.length + 1) = some st := by
  obtain ⟨hsize, hperm, hnd, hpos, hseg⟩ := h
  have hlen : st.db.length = st.chain.length := by
    have := hperm.length_eq
    simpa using this
  cases hchain : st.chain with
  | nil =>
    have hdb : st.db = [] := by
      have hp := hperm
      rw [hchain] at hp
      exact List.map_eq_nil_iff.1 hp.eq_nil
    have hsz : st.size = 0 := by rw [hsize, hchain]; rfl
    cases st with
    | mk c z d =>
      simp only at hchain hdb hsz
      subst hchain hdb hsz
      rfl
  | cons hId t =>
    rw [hchain] at hseg hpos hsize hlen
    cases hdbe : st.db with
    | nil => rw [hdbe] at hlen; simp at hlen
    | cons v0 rest0 =>
      rw [segOk_cons_iff] at hseg
      rcases (rowLinks_iff _ _ _ _).1 hseg.1 with ⟨vh, hvh, hant, hsig⟩
      have hfind : st.db.find? (fun v => v.anterior_id == none) = some vh := by
        apply find?_eq_some_unique _ _ vh (List.mem_of_find?_eq_some hvh)
          (by simp [hant])
        intro x hx hpx
        have hxid : x.id ∈ st.chain := hperm.subset (List.mem_map_of_mem (·.id) hx)
        rw [hchain] at hxid
        rcases List.mem_cons.1 hxid with hxh | hxt
        · have h1 : getVuelo st.db x.id = some x := getVuelo_of_mem st.db x hx hnd
          rw [hxh, hvh] at h1
          exact (Option.some.inj h1).symm
        · exfalso
          rcases segOk_tail_ant st.db hId t none hseg.2 x.id hxt with ⟨w, u, hw, hwa⟩
          have h1 : getVuelo st.db x.id = some x := getVuelo_of_mem st.db x hx hnd
          rw [h1] at hw
          have : x.anterior_id = some u := (Option.some.inj hw) ▸ hwa
          rw [this] at hpx
          simp at hpx
      have hvhid : vh.id = hId := by
        have := List.find?_some hvh
        simpa using this
      have hwalk :
          bucleSiguientes st.db (st.db.length + 1) vh.siguiente_id = some t := by
        rw [hsig]
        exact bucle_walk st.db t (st.db.length + 1) (some hId) hseg.2
          (fun i hi => hpos i (List.mem_cons_of_mem _ hi))
          (by rw [hlen]; simp; omega)
      rw [hdbe] at hfind hwalk
      show cargar_desde_bd (v0 :: rest0) ((v0 :: rest0).length + 1) = some st
      rw [cargar_desde_bd]
      simp only [hfind, Option.getD_some]
      rw [hwalk]
      cases st with
      | mk c z d =>
        simp only at hchain hdbe hsize ⊢
        subst hchain hdbe
        rw [hvhid, hsize]
        simp [Nat.add_comm]

theorem bucle_step (db : List Vuelo) (fuel : Nat) (i : Nat)
    (h0 : (i == 0) = false) :
    bucleSiguientes db fuel (some i)
      = match getVuelo db i with
        | none => some []
        | some v =>
          match fuel with
          | 0 => none
          | f + 1 => (bucleSiguientes db f v.siguiente_id).map (i :: ·) := by
  rw [bucleSiguientes, h0]
  rfl

theorem bucle_zero_id (db : List Vuelo) (fuel : Nat) (i : Nat)
    (h0 : (i == 0) = true) :
    bucleSiguientes db fuel (some i) = some [] := by
  rw [bucleSiguientes, h0]
  rfl

theorem traza_step (db : List Vuelo) (fuel : Nat) (i : Nat)
    (h0 : (i == 0) = false) :
    trazaSiguientes db fuel (some i)
      = match getVuelo db i with
        | none => []
        | some v =>
          match fuel with
          | 0 => []
          | f + 1 => i :: trazaSiguientes db f v.siguiente_id := by
  rw [trazaSiguientes, h0]
  rfl

theorem traza_zero_id (db : List Vuelo) (fuel : Nat) (i : Nat)
    (h0 : (i == 0) = true) :
    trazaSiguientes db fuel (some i) = [] := by
  rw [trazaSiguientes, h0]
  rfl

/-- The ids visited by the walk are stored ids. -/
theorem traza_subset (db : List Vuelo) :
    ∀ (fuel : Nat) (sig : Option Nat),
      ∀ x ∈ trazaSiguientes db fuel sig, x ∈ db.map (·.id) := by
  intro fuel
  induction fuel with
  | zero =>
    intro sig x hx
    rcases sig with _ | i
    · cases hx
    · cases h0 : (i == 0) with
      | true => rw [traza_zero_id db 0 i h0] at hx; cases hx
      | false =>
        rw [traza_step db 0 i h0] at hx
        rcases hv : getVuelo db i with _ | v <;> rw [hv] at hx <;> cases hx
  | succ f ih =>
    intro sig x hx
    rcases sig with _ | i
    · cases hx
    · cases h0 : (i == 0) with
      | true => rw [traza_zero_id db (f+1) i h0] at hx; cases hx
      | false =>
        rw [traza_step db (f+1) i h0] at hx
        rcases hv : getVuelo db i with _ | v <;> rw [hv] at hx
        · cases hx
        · rcases List.mem_cons.1 hx with heq | hx2
          · subst heq
            have hid : v.id = x := by simpa using List.find?_some hv
            rw [← hid]
            exact List.mem_map_of_mem (·.id) (List.mem_of_find?_eq_some hv)
          · exact ih v.siguiente_id x hx2

/-- If the walk exhausts its fuel, it visited exactly `fuel` ids. -/
theorem bucle_none_traza_length (db : List Vuelo) :
    ∀ (fuel : Nat) (sig : Option Nat),
      bucleSiguientes db fuel sig = none →
      (trazaSiguientes db fuel sig).length = fuel := by
  intro fuel
  induction fuel with
  | zero =>
    intro sig h
    rcases sig with _ | i
    · cases h
    · cases h0 : (i == 0) with
      | true => rw [bucle_zero_id db 0 i h0] at h; cases h
      | false =>
        rw [bucle_step db 0 i h0] at h
        rw [traza_step db 0 i h0]
        rcases hv : getVuelo db i with _ | v <;> rw [hv] at h
        · simp at h
        · rfl
  | succ f ih =>
    intro sig h
    rcases sig with _ | i
    · cases h
    · cases h0 : (i == 0) with
      | true => rw [bucle_zero_id db (f+1) i h0] at h; cases h
      | false =>
        rw [bucle_step db (f+1) i h0] at h
        rw [traza_step db (f+1) i h0]
        rcases hv : getVuelo db i with _ | v <;> rw [hv] at h
        · simp at h
        · simp only [Option.map_eq_none'] at h
          simp [ih v.siguiente_id h]

/-- Pigeonhole: a repetition-free walk over a finite store terminates within
`|db| + 1` iterations. -/
theorem bucle_terminates_of_nodup (db : List Vuelo) (sig : Option Nat)
    (hnd : (trazaSiguientes db (db.length + 1) sig).Nodup) :
    ∃ l, bucleSiguientes db (db.length + 1) sig = some l := by
  rcases h : bucleSiguientes db (db.length + 1) sig with _ | l
  · exfalso
    have hlen := bucle_none_traza_length db (db.length + 1) sig h
    have hsub : trazaSiguientes db (db.length + 1) sig ⊆ db.map (·.id) :=
      fun x hx => traza_subset db (db.length + 1) sig x hx
    have hle := (hnd.subperm hsub).length_le
    rw [hlen] at hle
    simp at hle
  · exact ⟨l, rfl⟩

/-! ## Lookup of freshly created rows -/

theorem getVuelo_not_mem (db : List Vuelo) (i : Nat)
    (h : i ∉ db.map (·.id)) : getVuelo db i = none := by
  rw [getVuelo, List.find?_eq_none]
  intro x hx
  simp only [beq_iff_eq]
  intro he
  exact h (he ▸ List.mem_map_of_mem (·.id) hx)

theorem getVuelo_isSome_of_mem (db : List Vuelo) (i : Nat)
    (h : i ∈ db.map (·.id)) : (getVuelo db i).isSome := by
  rcases List.mem_map.1 h with ⟨w, hw, hwid⟩
  rw [getVuelo, List.find?_isSome]
  exact ⟨w, hw, by simp [hwid]⟩

theorem getVuelo_append_mem (db : List Vuelo) (v : Vuelo) (i : Nat)
    (h : i ∈ db.map (·.id)) : getVuelo (db ++ [v]) i = getVuelo db i := by
  rw [getVuelo_append]
  have h2 := getVuelo_isSome_of_mem db i h
  rcases hg : getVuelo db i with _ | w
  · rw [hg] at h2; simp at h2
  · rfl

theorem getVuelo_append_fresh (db : List Vuelo) (v : Vuelo)
    (h : v.id ∉ db.map (·.id)) : getVuelo (db ++ [v]) v.id = some v := by
  rw [getVuelo_append, getVuelo_not_mem db v.id h]
  show getVuelo [v] v.id = some v
  rw [getVuelo, List.find?_cons_of_pos _ (by simp)]

theorem updEnlaces_sig (v : Vuelo) (x : Nat) :
    updEnlaces v none (some x) = { v with siguiente_id := some x } := rfl

theorem updEnlaces_ant (v : Vuelo) (x : Nat) :
    updEnlaces v (some x) none = { v with anterior_id := some x } := rfl

theorem updEnlaces_both (v : Vuelo) (x y : Nat) :
    updEnlaces v (some x) (some y)
      = { v with anterior_id := some x, siguiente_id := some y } := rfl

/-! ## The insertions preserve the mirror invariant -/

/-- `insertar_al_frente` on a freshly created record keeps the store an
exact mirror of the chain and prepends the record. -/
theorem espejo_frente (st : ListaVuelos) (v : Vuelo) (h : Espejo st)
    (hant : v.anterior_id = none) (hsig : v.siguiente_id = none)
    (hvpos : 0 < v.id) (hfresh : v.id ∉ st.db.map (·.id)) :
    Espejo (insertar_al_frente true { st with db := st.db ++ [v] } v.id)
      ∧ (insertar_al_frente true { st with db := st.db ++ [v] } v.id).chain
          = v.id :: st.chain := by
  obtain ⟨hsize, hperm, hnd, hposc, hseg⟩ := h
  have hndc : st.chain.Nodup := (hperm.nodup_iff).1 hnd
  cases hchain : st.chain with
  | nil =>
    rw [hchain] at hperm
    have hdbnil : st.db = [] := List.map_eq_nil_iff.1 hperm.eq_nil
    have hs0 : st.size = 0 := by rw [hsize, hchain]; rfl
    have hres : insertar_al_frente true
          ({ chain := [], size := st.size, db := st.db ++ [v] } : ListaVuelos) v.id
        = { chain := [v.id], size := 1, db := [v] } := by
      rw [hdbnil, hs0]
      simp [insertar_al_frente, actualizar_bd_noop]
    rw [hres]
    refine ⟨⟨rfl, ?_, ?_, ?_, ?_⟩, rfl⟩
    · simp
    · simp
    · intro i hi
      rcases List.mem_singleton.1 hi with rfl
      exact hvpos
    · apply (segOk_cons_iff _ _ _ _ _).2
      refine ⟨(rowLinks_iff _ _ _ _).2 ⟨v, ?_, hant, by rw [hsig]; rfl⟩, rfl⟩
      rw [getVuelo, List.find?_cons_of_pos _ (by simp)]
  | cons hId t =>
    rw [hchain] at hperm hseg hposc
    have hne_h : v.id ≠ hId := by
      intro he
      exact hfresh (hperm.mem_iff.2 (he ▸ List.mem_cons_self hId t))
    have hmem_h : hId ∈ st.db.map (·.id) :=
      hperm.mem_iff.2 (List.mem_cons_self hId t)
    rw [segOk_cons_iff] at hseg
    rcases (rowLinks_iff _ _ _ _).1 hseg.1 with ⟨vh, hvh, hvh_ant, hvh_sig⟩
    -- the two writes of the non-empty branch
    have hres : insertar_al_frente true
          ({ chain := hId :: t, size := st.size, db := st.db ++ [v] } : ListaVuelos) v.id
        = { chain := v.id :: hId :: t, size := st.size + 1
            db := actualizar_bd true
              (actualizar_bd true (st.db ++ [v]) v.id none (some hId))
              hId (some v.id) none } := by
      simp [insertar_al_frente]
    rw [hres]
    set db1 := actualizar_bd true (st.db ++ [v]) v.id none (some hId) with hdb1
    set db2 := actualizar_bd true db1 hId (some v.id) none with hdb2
    have hrow_v : getVuelo db2 v.id = some { v with siguiente_id := some hId } := by
      rw [hdb2, getVuelo_actualizar_ne true db1 _ _ hne_h, hdb1,
        getVuelo_actualizar_self, getVuelo_append_fresh st.db v hfresh]
      rfl
    have hrow_h : getVuelo db2 hId = some { vh with anterior_id := some v.id } := by
      rw [hdb2, getVuelo_actualizar_self, hdb1,
        getVuelo_actualizar_ne true _ _ _ (Ne.symm hne_h),
        getVuelo_append_mem st.db v hId hmem_h, hvh]
      rfl
    have hrow_t : ∀ i ∈ t, getVuelo db2 i = getVuelo st.db i := by
      intro i hi
      have hit : i ∈ st.db.map (·.id) :=
        hperm.mem_iff.2 (List.mem_cons_of_mem _ hi)
      have hne_v : i ≠ v.id := fun he => hfresh (he ▸ hit)
      have hne_hh : i ≠ hId := by
        intro he
        rw [hchain] at hndc
        exact (List.nodup_cons.1 hndc).1 (he ▸ hi)
      rw [hdb2, getVuelo_actualizar_ne true db1 _ _ hne_hh, hdb1,
        getVuelo_actualizar_ne true _ _ _ hne_v,
        getVuelo_append_mem st.db v i hit]
    have hmap2 : db2.map (·.id) = st.db.map (·.id) ++ [v.id] := by
      rw [hdb2, actualizar_map_id, hdb1, actualizar_map_id, List.map_append]
      rfl
    refine ⟨⟨?_, ?_, ?_, ?_, ?_⟩, rfl⟩
    · show st.size + 1 = _
      rw [hsize, hchain]
      rfl
    · show List.Perm (db2.map (·.id)) _
      rw [hmap2]
      exact (List.perm_append_singleton _ _).trans (hperm.cons v.id)
    · show (db2.map (·.id)).Nodup
      rw [hmap2]
      exact ((List.perm_append_singleton _ _).nodup_iff).2
        (List.nodup_cons.2 ⟨hfresh, hnd⟩)
    · intro i hi
      rcases List.mem_cons.1 hi with rfl | hi2
      · exact hvpos
      · exact hposc i hi2
    · show segOk db2 none (v.id :: hId :: t) none = true
      apply (segOk_cons_iff _ _ _ _ _).2
      constructor
      · exact (rowLinks_iff _ _ _ _).2
          ⟨_, hrow_v, hant, rfl⟩
      · apply (segOk_cons_iff _ _ _ _ _).2
        constructor
        · exact (rowLinks_iff _ _ _ _).2 ⟨_, hrow_h, rfl, hvh_sig⟩
        · rw [segOk_congr st.db db2 _ _ t hrow_t]
          exact hseg.2

/-- `insertar_al_final` on a freshly created record keeps the store an exact
mirror of the chain and appends the record. -/
theorem espejo_final (st : ListaVuelos) (v : Vuelo) (h : Espejo st)
    (hant : v.anterior_id = none) (hsig : v.siguiente_id = none)
    (hvpos : 0 < v.id) (hfresh : v.id ∉ st.db.map (·.id)) :
    Espejo (insertar_al_final true { st with db := st.db ++ [v] } v.id)
      ∧ (insertar_al_final true { st with db := st.db ++ [v] } v.id).chain
          = st.chain ++ [v.id] := by
  obtain ⟨hsize, hperm, hnd, hposc, hseg⟩ := h
  have hndc : st.chain.Nodup := (hperm.nodup_iff).1 hnd
  rcases hlast : st.chain.getLast? with _ | c
  · -- empty chain
    have hchain : st.chain = [] := List.getLast?_eq_none_iff.1 hlast
    rw [hchain] at hperm
    have hdbnil : st.db = [] := List.map_eq_nil_iff.1 hperm.eq_nil
    have hs0 : st.size = 0 := by rw [hsize, hchain]; rfl
    have hres : insertar_al_final true { st with db := st.db ++ [v] } v.id
        = { chain := [v.id], size := 1, db := [v] } := by
      show insertar_al_final true
        ({ chain := st.chain, size := st.size, db := st.db ++ [v] } : ListaVuelos) v.id = _
      rw [hchain, hdbnil, hs0]
      simp [insertar_al_final, actualizar_bd_noop]
    rw [hres, hchain]
    refine ⟨⟨rfl, ?_, ?_, ?_, ?_⟩, rfl⟩
    · simp
    · simp
    · intro i hi
      rcases List.mem_singleton.1 hi with rfl
      exact hvpos
    · apply (segOk_cons_iff _ _ _ _ _).2
      refine ⟨(rowLinks_iff _ _ _ _).2 ⟨v, ?_, hant, by rw [hsig]; rfl⟩, rfl⟩
      rw [getVuelo, List.find?_cons_of_pos _ (by simp)]
  · -- non-empty chain, `c` is the old tail
    rcases List.getLast?_eq_some_iff.1 hlast with ⟨ini, hchain⟩
    have hcmem : c ∈ st.chain := by rw [hchain]; simp
    have hne_c : v.id ≠ c := by
      intro he
      exact hfresh (hperm.mem_iff.2 (he ▸ hcmem))
    have hmem_c : c ∈ st.db.map (·.id) := hperm.mem_iff.2 hcmem
    have hcini : c ∉ ini := by
      rw [hchain] at hndc
      have hdisj := (List.nodup_append.1 hndc).2.2
      intro hc
      exact hdisj hc (List.mem_singleton.2 rfl)
    -- decompose the persisted links of the old chain
    have hsegsplit :
        segOk st.db none ini (some c) = true
          ∧ rowLinks st.db c (lastOr ini none) none = true := by
      rw [hchain, segOk_append, Bool.and_eq_true] at hseg
      rw [segOk_cons_iff] at hseg
      exact ⟨hseg.1, hseg.2.1⟩
    rcases (rowLinks_iff _ _ _ _).1 hsegsplit.2 with ⟨vc, hvc, hvc_ant, hvc_sig⟩
    have hres : insertar_al_final true { st with db := st.db ++ [v] } v.id
        = { chain := st.chain ++ [v.id], size := st.size + 1
            db := actualizar_bd true
              (actualizar_bd true (st.db ++ [v]) v.id (some c) none)
              c none (some v.id) } := by
      show insertar_al_final true
        ({ chain := st.chain, size := st.size, db := st.db ++ [v] } : ListaVuelos) v.id = _
      rw [insertar_al_final]
      simp only [hlast]
    rw [hres]
    set db1 := actualizar_bd true (st.db ++ [v]) v.id (some c) none with hdb1
    set db2 := actualizar_bd true db1 c none (some v.id) with hdb2
    have hrow_v : getVuelo db2 v.id = some { v with anterior_id := some c } := by
      rw [hdb2, getVuelo_actualizar_ne true db1 _ _ hne_c, hdb1,
        getVuelo_actualizar_self, getVuelo_append_fresh st.db v hfresh]
      rfl
    have hrow_c : getVuelo db2 c = some { vc with siguiente_id := some v.id } := by
      rw [hdb2, getVuelo_actualizar_self, hdb1,
        getVuelo_actualizar_ne true _ _ _ (Ne.symm hne_c),
        getVuelo_append_mem st.db v c hmem_c, hvc]
      rfl
    have hrow_ini : ∀ i ∈ ini, getVuelo db2 i = getVuelo st.db i := by
      intro i hi
      have hic : i ∈ st.chain := by rw [hchain]; exact List.mem_append.2 (.inl hi)
      have hit : i ∈ st.db.map (·.id) := hperm.mem_iff.2 hic
      have hne_v : i ≠ v.id := fun he => hfresh (he ▸ hit)
      have hne_cc : i ≠ c := fun he => hcini (he ▸ hi)
      rw [hdb2, getVuelo_actualizar_ne true db1 _ _ hne_cc, hdb1,
        getVuelo_actualizar_ne true _ _ _ hne_v,
        getVuelo_append_mem st.db v i hit]
    have hmap2 : db2.map (·.id) = st.db.map (·.id) ++ [v.id] := by
      rw [hdb2, actualizar_map_id, hdb1, actualizar_map_id, List.map_append]
      rfl
    refine ⟨⟨?_, ?_, ?_, ?_, ?_⟩, rfl⟩
    · show st.size + 1 = _
      rw [hsize]
      simp
    · show List.Perm (db2.map (·.id)) _
      rw [hmap2]
      exact hperm.append_right [v.id]
    · show (db2.map (·.id)).Nodup
      rw [hmap2]
      exact ((List.perm_append_singleton _ _).nodup_iff).2
        (List.nodup_cons.2 ⟨hfresh, hnd⟩)
    · intro i hi
      rcases List.mem_append.1 hi with hi2 | hi2
      · exact hposc i hi2
      · rcases List.mem_singleton.1 hi2 with rfl
        exact hvpos
    · show segOk db2 none (st.chain ++ [v.id]) none = true
      have hch2 : st.chain ++ [v.id] = ini ++ [c, v.id] := by
        rw [hchain, List.append_assoc]
        rfl
      rw [hch2, segOk_append, Bool.and_eq_true]
      constructor
      · show segOk db2 none ini (some c) = true
        rw [segOk_congr st.db db2 _ _ ini hrow_ini]
        exact hsegsplit.1
      · apply (segOk_cons_iff _ _ _ _ _).2
        constructor
        · exact (rowLinks_iff _ _ _ _).2 ⟨_, hrow_c, hvc_ant, rfl⟩
        · apply (segOk_cons_iff _ _ _ _ _).2
          exact ⟨(rowLinks_iff _ _ _ _).2 ⟨_, hrow_v, rfl, hsig⟩, rfl⟩

/-! ## Positional decomposition of the chain -/

theorem insertIdx_after (l1 : List Nat) (a x : Nat) (rest : List Nat) :
    (l1 ++ a :: rest).insertIdx (l1.length + 1) x = l1 ++ a :: x :: rest := by
  induction l1 with
  | nil => rfl
  | cons y ys ih => simpa [List.insertIdx_succ_cons] using ih

theorem eraseIdx_after (l1 : List Nat) (r : Nat) (rest : List Nat) :
    (l1 ++ r :: rest).eraseIdx l1.length = l1 ++ rest := by
  induction l1 with
  | nil => rfl
  | cons y ys ih => simpa [List.eraseIdx_cons_succ] using ih

theorem getElem?_after (l1 : List Nat) (a : Nat) (rest : List Nat) :
    (l1 ++ a :: rest)[l1.length]? = some a := by
  rw [List.getElem?_append_right (Nat.le_refl _)]
  simp

theorem getElem?_after1 (l1 : List Nat) (a b : Nat) (rest : List Nat) :
    (l1 ++ a :: b :: rest)[l1.length + 1]? = some b := by
  rw [List.getElem?_append_right (by omega)]
  simp [Nat.add_sub_cancel_left]

theorem getElem?_after2 (l1 : List Nat) (a r b : Nat) (rest : List Nat) :
    (l1 ++ a :: r :: b :: rest)[l1.length + 2]? = some b := by
  rw [List.getElem?_append_right (by omega)]
  simp [Nat.add_sub_cancel_left]

theorem list_decomp2 (l : List Nat) : ∀ (p : Nat), 0 < p → p < l.length →
    ∃ l1 a b l2, l = l1 ++ a :: b :: l2 ∧ l1.length = p - 1 := by
  induction l with
  | nil =>
    intro p hp hlt
    simp at hlt
  | cons x rest ih =>
    intro p hp hlt
    cases p with
    | zero => omega
    | succ q =>
      cases q with
      | zero =>
        cases rest with
        | nil => simp at hlt
        | cons b l2 => exact ⟨[], x, b, l2, rfl, rfl⟩
      | succ r =>
        have hlt2 : r + 1 < rest.length := by simp at hlt; omega
        rcases ih (r + 1) (Nat.succ_pos r) hlt2 with ⟨l1, a, b, l2, he, hl⟩
        refine ⟨x :: l1, a, b, l2, ?_, ?_⟩
        · rw [List.cons_append, he]
        · simp [hl]

theorem list_decomp3 (l : List Nat) : ∀ (p : Nat), 0 < p → p + 1 < l.length →
    ∃ l1 a r b l2, l = l1 ++ a :: r :: b :: l2 ∧ l1.length = p - 1 := by
  induction l with
  | nil =>
    intro p hp hlt
    simp at hlt
  | cons x rest ih =>
    intro p hp hlt
    cases p with
    | zero => omega
    | succ q =>
      cases q with
      | zero =>
        cases rest with
        | nil => simp at hlt
        | cons rr rest2 =>
          cases rest2 with
          | nil => simp at hlt
          | cons bb l2 => exact ⟨[], x, rr, bb, l2, rfl, rfl⟩
      | succ w =>
        have hlt2 : (w + 1) + 1 < rest.length := by simp at hlt; omega
        rcases ih (w + 1) (Nat.succ_pos w) hlt2 with ⟨l1, a, r, b, l2, he, hl⟩
        refine ⟨x :: l1, a, r, b, l2, ?_, ?_⟩
        · rw [List.cons_append, he]
        · simp [hl]

/-! ## Branch equations for the positional operations -/

theorem insertar_pos_out (wok : Bool) (st : ListaVuelos) (vid : Nat) (p : Int)
    (h : p < 0 ∨ (st.size : Int) < p) :
    insertar_en_posicion wok st vid p = (.error .posicionFueraDeRango, st) := by
  rw [insertar_en_posicion, if_pos]
  rcases h with h | h <;> simp [h]

theorem insertar_pos_zero (wok : Bool) (st : ListaVuelos) (vid : Nat) :
    insertar_en_posicion wok st vid 0
      = (.ok (), insertar_al_frente wok st vid) := by
  rw [insertar_en_posicion, if_neg (by simp), if_pos (by simp)]

theorem insertar_pos_size (wok : Bool) (st : ListaVuelos) (vid : Nat)
    (hpos : 0 < st.size) :
    insertar_en_posicion wok st vid (st.size : Int)
      = (.ok (), insertar_al_final wok st vid) := by
  rw [insertar_en_posicion, if_neg (by simp), if_neg (by simp; omega),
    if_pos (by simp)]

theorem insertar_pos_mid (wok : Bool) (st : ListaVuelos) (vid : Nat) (p : Int)
    (h0 : 0 < p) (hlt : p < (st.size : Int)) (a b : Nat)
    (hget1 : st.chain[p.toNat - 1]? = some a)
    (hget2 : st.chain[p.toNat]? = some b) :
    insertar_en_posicion wok st vid p
      = (.ok (), { chain := st.chain.insertIdx p.toNat vid
                   size := st.size + 1
                   db := actualizar_bd wok
                     (actualizar_bd wok
                       (actualizar_bd wok st.db vid (some a) (some b))
                       a none (some vid))
                     b (some vid) none }) := by
  rw [insertar_en_posicion, if_neg (by simp; omega), if_neg (by simp; omega),
    if_neg (by simp; omega)]
  simp only [hget1, hget2]

theorem extraer_out (wok : Bool) (st : ListaVuelos) (p : Int)
    (h : p < 0 ∨ (st.size : Int) ≤ p) :
    extraer_de_posicion wok st p = (.error .posicionFueraDeRango, st) := by
  rw [extraer_de_posicion, if_pos]
  rcases h with h | h <;> simp [h]

theorem extraer_zero (wok : Bool) (st : ListaVuelos) (r : Nat) (t : List Nat)
    (hchain : st.chain = r :: t) (hpos : 0 < st.size) :
    extraer_de_posicion wok st 0
      = (.ok ((getVuelo st.db r).getD default),
         { chain := t, size := st.size - 1, db := st.db }) := by
  rw [extraer_de_posicion, if_neg (by simp; omega), if_pos (by simp), hchain]
  cases t <;> simp [actualizar_bd_noop]

theorem extraer_last (wok : Bool) (st : ListaVuelos) (p : Int)
    (hp : p = (st.size : Int) - 1) (hp0 : 0 < p) (r : Nat)
    (hlast : st.chain.getLast? = some r) :
    extraer_de_posicion wok st p
      = (.ok ((getVuelo st.db r).getD default),
         { chain := st.chain.dropLast, size := st.size - 1, db := st.db }) := by
  rw [extraer_de_posicion, if_neg (by simp; omega), if_neg (by simp; omega),
    if_pos (by simp [hp])]
  rcases hd : st.chain.dropLast.getLast? with _ | c2 <;>
    simp [hlast, hd, actualizar_bd_noop]

theorem extraer_mid (wok : Bool) (st : ListaVuelos) (p : Int)
    (h0 : 0 < p) (hlt : p + 1 < (st.size : Int)) (a r b : Nat)
    (hget1 : st.chain[p.toNat - 1]? = some a)
    (hget2 : st.chain[p.toNat]? = some r)
    (hget3 : st.chain[p.toNat + 1]? = some b) :
    extraer_de_posicion wok st p
      = (.ok ((getVuelo (actualizar_bd wok
              (actualizar_bd wok st.db a none (some b))
              b (some a) none) r).getD default),
         { chain := st.chain.eraseIdx p.toNat, size := st.size - 1
           db := actualizar_bd wok
             (actualizar_bd wok st.db a none (some b))
             b (some a) none }) := by
  rw [extraer_de_posicion, if_neg (by simp; omega), if_neg (by simp; omega),
    if_neg (by simp; omega)]
  simp only [hget1, hget2, hget3]
  rw [actualizar_bd_noop]

theorem reordenar_len (wok : Bool) (st : ListaVuelos) (ids : List Nat)
    (h : ids.length ≠ st.size) :
    reordenar wok st ids = (.error .cantidadNoCoincide, st) := by
  rw [reordenar, if_pos]
  simp [h]

theorem reordenar_unknown (wok : Bool) (st : ListaVuelos) (ids : List Nat)
    (hlen : ids.length = st.size) (i0 : Nat) (hi : i0 ∈ ids)
    (hn : i0 ∉ st.chain) :
    reordenar wok st ids = (.error .idNoExiste, st) := by
  rw [reordenar, if_neg (by simp [hlen]), if_pos]
  simp only [Bool.not_eq_true', List.all_eq_false]
  exact ⟨i0, hi, by simpa using hn⟩

theorem reordenar_pasa (wok : Bool) (st : ListaVuelos) (ids : List Nat)
    (hlen : ids.length = st.size) (hall : ∀ i ∈ ids, i ∈ st.chain) :
    reordenar wok st ids
      = (.ok (listar_todos (ids.foldl (fun s i => insertar_al_final wok s i)
                 { st with chain := [], size := 0 })),
         ids.foldl (fun s i => insertar_al_final wok s i)
           { st with chain := [], size := 0 }) := by
  rw [reordenar, if_neg (by simp [hlen]), if_neg]
  simp only [Bool.not_eq_true', Bool.not_eq_false]
  rw [List.all_eq_true]
  intro i hi
  simpa using hall i hi

/-- A successful `insertar_en_posicion` on a freshly created record keeps the
store an exact mirror of the chain. -/
theorem espejo_posicion (st : ListaVuelos) (v : Vuelo) (p : Int) (h : Espejo st)
    (hant : v.anterior_id = none) (hsig : v.siguiente_id = none)
    (hvpos : 0 < v.id) (hfresh : v.id ∉ st.db.map (·.id))
    (r : Except VueloError Unit) (st2 : ListaVuelos)
    (hrun : insertar_en_posicion true { st with db := st.db ++ [v] } v.id p
        = (r, st2)) (hok : r = .ok ()) :
    Espejo st2 := by
  subst hok
  by_cases hout : p < 0 ∨ (st.size : Int) < p
  · rw [insertar_pos_out true { st with db := st.db ++ [v] } v.id p hout]
      at hrun
    exact absurd (congrArg Prod.fst hrun) (by simp)
  · push_neg at hout
    by_cases hz : p = 0
    · subst hz
      rw [insertar_pos_zero] at hrun
      have h2 : insertar_al_frente true { st with db := st.db ++ [v] } v.id
          = st2 := congrArg Prod.snd hrun
      rw [← h2]
      exact (espejo_frente st v h hant hsig hvpos hfresh).1
    · by_cases hsz : p = (st.size : Int)
      · rw [hsz] at hrun
        rw [show ((st.size : Int))
            = (({ st with db := st.db ++ [v] } : ListaVuelos).size : Int)
            from rfl] at hrun
        rw [insertar_pos_size true _ v.id (by show 0 < st.size; omega)] at hrun
        have h2 : insertar_al_final true { st with db := st.db ++ [v] } v.id
            = st2 := congrArg Prod.snd hrun
        rw [← h2]
        exact (espejo_final st v h hant hsig hvpos hfresh).1
      · -- interior insertion
        obtain ⟨hsize, hperm, hnd, hposc, hseg⟩ := h
        have hndc : st.chain.Nodup := (hperm.nodup_iff).1 hnd
        have h0 : (0:Int) < p := by omega
        have hltI : p < (st.size : Int) := by omega
        have hpn1 : 1 ≤ p.toNat := by omega
        have hpnlt : p.toNat < st.chain.length := by rw [← hsize]; omega
        rcases list_decomp2 st.chain p.toNat hpn1 hpnlt with
          ⟨l1, a, b, l2, hchain, hl1⟩
        have hpe : p.toNat = l1.length + 1 := by omega
        have hget1 : st.chain[p.toNat - 1]? = some a := by
          rw [hchain, show p.toNat - 1 = l1.length by omega]
          exact getElem?_after l1 a (b :: l2)
        have hget2 : st.chain[p.toNat]? = some b := by
          rw [hchain, hpe]
          exact getElem?_after1 l1 a b l2
        rw [insertar_pos_mid true { st with db := st.db ++ [v] } v.id p h0 hltI
          a b hget1 hget2] at hrun
        have h2 := congrArg Prod.snd hrun
        simp only at h2
        rw [← h2]
        -- distinctness of the ids involved
        have hndc2 : (l1 ++ a :: b :: l2).Nodup := hchain ▸ hndc
        have hnd_parts := List.nodup_append.1 hndc2
        have hnd_abl2 : (a :: b :: l2).Nodup := hnd_parts.2.1
        have hdisj : l1.Disjoint (a :: b :: l2) := hnd_parts.2.2
        have hab : a ≠ b := by
          intro he
          exact (List.nodup_cons.1 hnd_abl2).1 (he ▸ List.mem_cons_self b l2)
        have hal1 : a ∉ l1 := fun hm => hdisj hm (List.mem_cons_self _ _)
        have hbl1 : b ∉ l1 :=
          fun hm => hdisj hm (List.mem_cons_of_mem _ (List.mem_cons_self _ _))
        have hal2 : a ∉ l2 := by
          intro hm
          exact (List.nodup_cons.1 hnd_abl2).1 (List.mem_cons_of_mem _ hm)
        have hbl2 : b ∉ l2 := by
          intro hm
          exact (List.nodup_cons.1 (List.nodup_cons.1 hnd_abl2).2).1 hm
        have hamem : a ∈ st.chain := by rw [hchain]; simp
        have hbmem : b ∈ st.chain := by rw [hchain]; simp
        have hvchain : v.id ∉ st.chain :=
          fun hm => hfresh (hperm.mem_iff.2 hm)
        have hva : v.id ≠ a := fun he => hvchain (he ▸ hamem)
        have hvb : v.id ≠ b := fun he => hvchain (he ▸ hbmem)
        have hamemdb : a ∈ st.db.map (·.id) := hperm.mem_iff.2 hamem
        have hbmemdb : b ∈ st.db.map (·.id) := hperm.mem_iff.2 hbmem
        -- the original persisted links of the decomposed chain
        have hsegd := hseg
        rw [hchain, segOk_append, Bool.and_eq_true, segOk_cons_iff,
          segOk_cons_iff] at hsegd
        obtain ⟨hseg_l1, hrl_a, hrl_b, hseg_l2⟩ := hsegd
        rcases (rowLinks_iff _ _ _ _).1 hrl_a with ⟨va, hva_get, hva_ant, hva_sig⟩
        rcases (rowLinks_iff _ _ _ _).1 hrl_b with ⟨vb, hvb_get, hvb_ant, hvb_sig⟩
        -- the three store writes
        set db1 := actualizar_bd true (st.db ++ [v]) v.id (some a) (some b)
          with hdb1
        set db2 := actualizar_bd true db1 a none (some v.id) with hdb2
        set db3 := actualizar_bd true db2 b (some v.id) none with hdb3
        have hrow_v : getVuelo db3 v.id
            = some { v with anterior_id := some a, siguiente_id := some b } := by
          rw [hdb3, getVuelo_actualizar_ne true db2 _ _ hvb, hdb2,
            getVuelo_actualizar_ne true db1 _ _ hva, hdb1,
            getVuelo_actualizar_self, getVuelo_append_fresh st.db v hfresh]
          rfl
        have hrow_a : getVuelo db3 a
            = some { va with siguiente_id := some v.id } := by
          rw [hdb3, getVuelo_actualizar_ne true db2 _ _ hab, hdb2,
            getVuelo_actualizar_self, hdb1,
            getVuelo_actualizar_ne true _ _ _ (Ne.symm hva),
            getVuelo_append_mem st.db v a hamemdb, hva_get]
          rfl
        have hrow_b : getVuelo db3 b
            = some { vb with anterior_id := some v.id } := by
          rw [hdb3, getVuelo_actualizar_self, hdb2,
            getVuelo_actualizar_ne true db1 _ _ (Ne.symm hab), hdb1,
            getVuelo_actualizar_ne true _ _ _ (Ne.symm hvb),
            getVuelo_append_mem st.db v b hbmemdb, hvb_get]
          rfl
        have hrow_other : ∀ i, i ∈ l1 ∨ i ∈ l2 →
            getVuelo db3 i = getVuelo st.db i := by
          intro i hi
          have hic : i ∈ st.chain := by
            rw [hchain]
            rcases hi with hi | hi <;> simp [hi]
          have hidb : i ∈ st.db.map (·.id) := hperm.mem_iff.2 hic
          have hne_v : i ≠ v.id := fun he => hfresh (he ▸ hidb)
          have hne_a : i ≠ a := by
            rintro rfl
            rcases hi with hi | hi
            · exact hal1 hi
            · exact hal2 hi
          have hne_b : i ≠ b := by
            rintro rfl
            rcases hi with hi | hi
            · exact hbl1 hi
            · exact hbl2 hi
          rw [hdb3, getVuelo_actualizar_ne true db2 _ _ hne_b, hdb2,
            getVuelo_actualizar_ne true db1 _ _ hne_a, hdb1,
            getVuelo_actualizar_ne true _ _ _ hne_v,
            getVuelo_append_mem st.db v i hidb]
        have hmap3 : db3.map (·.id) = st.db.map (·.id) ++ [v.id] := by
          rw [hdb3, actualizar_map_id, hdb2, actualizar_map_id, hdb1,
            actualizar_map_id, List.map_append]
          rfl
        -- the new chain
        have hchain2 : ({ st with db := st.db ++ [v] } : ListaVuelos).chain.insertIdx
              p.toNat v.id = l1 ++ a :: v.id :: b :: l2 := by
          show st.chain.insertIdx p.toNat v.id = _
          rw [hchain, hpe]
          exact insertIdx_after l1 a v.id (b :: l2)
        have hpermc : (l1 ++ a :: v.id :: b :: l2).Perm (v.id :: st.chain) := by
          have h1 : l1 ++ a :: v.id :: b :: l2
              = (l1 ++ [a]) ++ v.id :: (b :: l2) := by simp
          have h2 : (l1 ++ [a]) ++ (b :: l2) = st.chain := by
            rw [hchain]; simp
          rw [h1]
          exact List.perm_middle.trans (by rw [h2])
        refine ⟨?_, ?_, ?_, ?_, ?_⟩
        · show ({ st with db := st.db ++ [v] } : ListaVuelos).size + 1 = _
          rw [hchain2]
          show st.size + 1 = _
          rw [hsize, hchain]
          simp only [List.length_append, List.length_cons]
          omega
        · show List.Perm (db3.map (·.id)) _
          rw [hmap3, hchain2]
          exact ((List.perm_append_singleton _ _).trans (hperm.cons v.id)).trans
            hpermc.symm
        · show (db3.map (·.id)).Nodup
          rw [hmap3]
          exact ((List.perm_append_singleton _ _).nodup_iff).2
            (List.nodup_cons.2 ⟨hfresh, hnd⟩)
        · intro i hi
          rw [hchain2] at hi
          rcases List.mem_cons.1 (hpermc.mem_iff.1 hi) with rfl | hi2
          · exact hvpos
          · exact hposc i hi2
        · rw [hchain2]
          show segOk db3 none (l1 ++ a :: v.id :: b :: l2) none = true
          rw [segOk_append, Bool.and_eq_true]
          constructor
          · show segOk db3 none l1 (headOr (a :: v.id :: b :: l2) none) = true
            rw [segOk_congr st.db db3 _ _ l1 (fun i hi => hrow_other i (.inl hi))]
            exact hseg_l1
          · rw [segOk_cons_iff]
            refine ⟨(rowLinks_iff _ _ _ _).2 ⟨_, hrow_a, hva_ant, rfl⟩, ?_⟩
            rw [segOk_cons_iff]
            refine ⟨(rowLinks_iff _ _ _ _).2 ⟨_, hrow_v, rfl, rfl⟩, ?_⟩
            rw [segOk_cons_iff]
            refine ⟨(rowLinks_iff _ _ _ _).2 ⟨_, hrow_b, rfl, hvb_sig⟩, ?_⟩
            rw [segOk_congr st.db db3 _ _ l2 (fun i hi => hrow_other i (.inr hi))]
            exact hseg_l2

/-! ## Runs of insertions -/

theorem espejo_vacia : Espejo vacia := by
  refine ⟨rfl, List.Perm.refl _, ?_, ?_, rfl⟩ <;> simp [vacia]

theorem foldr_max_le (db : List Vuelo) :
    ∀ v ∈ db, v.id ≤ db.foldr (fun v m => max v.id m) 0 := by
  induction db with
  | nil => intro v hv; cases hv
  | cons w rest ih =>
    intro v hv
    rcases List.mem_cons.1 hv with rfl | hv2
    · exact Nat.le_max_left _ _
    · exact le_trans (ih v hv2) (Nat.le_max_right _ _)

theorem freshId_pos (db : List Vuelo) : 0 < freshId db := Nat.succ_pos _

theorem freshId_not_mem (db : List Vuelo) : freshId db ∉ db.map (·.id) := by
  intro hm
  rcases List.mem_map.1 hm with ⟨v, hv, hid⟩
  have hle := foldr_max_le db v hv
  unfold freshId at hid
  omega

/-- Every state reached by a run of successful insertions from a mirror
state is again a mirror state. -/
theorem runIns_espejo : ∀ (ops : List OpIns) (st st2 : ListaVuelos),
    Espejo st → runIns st ops = some st2 → Espejo st2 := by
  intro ops
  induction ops with
  | nil =>
    intro st st2 h hr
    rw [runIns] at hr
    exact (Option.some.inj hr) ▸ h
  | cons op rest ih =>
    intro st st2 h hr
    cases op with
    | front d =>
      simp only [runIns] at hr
      exact ih _ st2
        ((espejo_frente st (nuevoVuelo st.db d) h rfl rfl
          (freshId_pos st.db) (freshId_not_mem st.db)).1) hr
    | back d =>
      simp only [runIns] at hr
      exact ih _ st2
        ((espejo_final st (nuevoVuelo st.db d) h rfl rfl
          (freshId_pos st.db) (freshId_not_mem st.db)).1) hr
    | atPos d p =>
      simp only [runIns] at hr
      rcases hstep : insertar_en_posicion true
          { st with db := st.db ++ [nuevoVuelo st.db d] }
          (nuevoVuelo st.db d).id p with ⟨rr, stM⟩
      rw [hstep] at hr
      cases rr with
      | error e => cases hr
      | ok u =>
        cases u
        exact ih stM st2
          (espejo_posicion st (nuevoVuelo st.db d) p h rfl rfl
            (freshId_pos st.db) (freshId_not_mem st.db) _ stM hstep rfl) hr

/-! ## Reordering -/

theorem ListaVuelos.ext (s1 s2 : ListaVuelos) (h1 : s1.chain = s2.chain)
    (h2 : s1.size = s2.size) (h3 : s1.db = s2.db) : s1 = s2 := by
  cases s1
  cases s2
  simp_all

theorem insertar_final_chain (wok : Bool) (st : ListaVuelos) (vid : Nat) :
    (insertar_al_final wok st vid).chain = st.chain ++ [vid] := by
  rcases hl : st.chain.getLast? with _ | c
  · have he : st.chain = [] := List.getLast?_eq_none_iff.1 hl
    simp [insertar_al_final, hl, he]
  · simp [insertar_al_final, hl]

theorem insertar_final_size (wok : Bool) (st : ListaVuelos) (vid : Nat) :
    (insertar_al_final wok st vid).size = st.size + 1 := by
  rcases hl : st.chain.getLast? with _ | c <;> simp [insertar_al_final, hl]

theorem insertar_final_presence (wok : Bool) (st : ListaVuelos) (vid i : Nat) :
    (getVuelo (insertar_al_final wok st vid).db i).isSome
      = (getVuelo st.db i).isSome := by
  rcases hl : st.chain.getLast? with _ | c <;>
    simp [insertar_al_final, hl, getVuelo_isSome_actualizar]

theorem foldl_final_chain (wok : Bool) (ids : List Nat) :
    ∀ st0 : ListaVuelos,
      (ids.foldl (fun s i => insertar_al_final wok s i) st0).chain
        = st0.chain ++ ids := by
  induction ids with
  | nil => intro st0; simp
  | cons y ys ih =>
    intro st0
    rw [List.foldl_cons, ih, insertar_final_chain]
    simp

theorem foldl_final_size (wok : Bool) (ids : List Nat) :
    ∀ st0 : ListaVuelos,
      (ids.foldl (fun s i => insertar_al_final wok s i) st0).size
        = st0.size + ids.length := by
  induction ids with
  | nil => intro st0; simp
  | cons y ys ih =>
    intro st0
    rw [List.foldl_cons, ih, insertar_final_size]
    simp
    omega

theorem foldl_final_presence (wok : Bool) (ids : List Nat) :
    ∀ (st0 : ListaVuelos) (i : Nat),
      (getVuelo (ids.foldl (fun s i => insertar_al_final wok s i) st0).db i).isSome
        = (getVuelo st0.db i).isSome := by
  induction ids with
  | nil => intro st0 i; rfl
  | cons y ys ih =>
    intro st0 i
    rw [List.foldl_cons, ih, insertar_final_presence]

theorem filterMap_eq_map_getD (f : Nat → Option Vuelo) (l : List Nat)
    (h : ∀ i ∈ l, (f i).isSome) :
    l.filterMap f = l.map (fun i => (f i).getD default) := by
  induction l with
  | nil => rfl
  | cons x rest ih =>
    rw [List.filterMap_cons, List.map_cons]
    rcases hf : f x with _ | b
    · have hx := h x (List.mem_cons_self _ _)
      rw [hf] at hx
      simp at hx
    · simp only [Option.getD_some, hf]
      rw [ih (fun i hi => h i (List.mem_cons_of_mem _ hi))]

/-- `reordenar` with a valid id list succeeds, rebuilds the chain in the
given order, and returns the ids mapped to their (current) records. -/
theorem reordenar_exito (st : ListaVuelos) (ids : List Nat)
    (hpres : ∀ i ∈ st.chain, (getVuelo st.db i).isSome)
    (hlen : ids.length = st.size)
    (hall : ∀ i ∈ ids, i ∈ st.chain) :
    ∃ stF, reordenar true st ids = (.ok (listar_todos stF), stF)
      ∧ stF.chain = ids
      ∧ stF.size = ids.length
      ∧ listar_todos stF = ids.map (fun i => (getVuelo stF.db i).getD default) := by
  refine ⟨_, reordenar_pasa true st ids hlen hall, ?_, ?_, ?_⟩
  · rw [foldl_final_chain]
    rfl
  · rw [foldl_final_size]
    simp
  · rw [listar_todos, foldl_final_chain]
    show List.filterMap _ ([] ++ ids) = _
    rw [List.nil_append]
    apply filterMap_eq_map_getD
    intro i hi
    rw [foldl_final_presence]
    exact hpres i (hall i hi)

theorem adjFrom_none_cons (db : List Vuelo) (y : Nat) (rest : List Nat) :
    adjFrom db none (y :: rest) = adjFrom db (some y) rest := rfl

theorem adjFrom_some_cons (db : List Vuelo) (x y : Nat) (rest : List Nat) :
    adjFrom db (some x) (y :: rest)
      = ((match getVuelo db x, getVuelo db y with
          | some vx, some vy =>
            vx.siguiente_id == some y && vy.anterior_id == some x
          | _, _ => false) && adjFrom db (some y) rest) := rfl

/-- Folding `insertar_al_final` over ids whose rows already carry exactly the
adjacency links being written leaves the store untouched. -/
theorem foldl_final_same_db (db : List Vuelo)
    (hnd : (db.map (·.id)).Nodup) :
    ∀ (rest : List Nat) (st0 : ListaVuelos), st0.db = db →
      adjFrom db st0.chain.getLast? rest = true →
      (rest.foldl (fun s i => insertar_al_final true s i) st0).db = db := by
  intro rest
  induction rest with
  | nil =>
    intro st0 h0 _
    simpa using h0
  | cons y rest' ih =>
    intro st0 h0 hadj
    rw [List.foldl_cons]
    rcases hl : st0.chain.getLast? with _ | x
    · rw [hl, adjFrom_none_cons] at hadj
      apply ih (insertar_al_final true st0 y)
      · simp [insertar_al_final, hl, actualizar_bd_noop, h0]
      · rw [insertar_final_chain, List.getLast?_concat]
        exact hadj
    · rw [hl, adjFrom_some_cons, Bool.and_eq_true] at hadj
      obtain ⟨hpair, hrest⟩ := hadj
      rcases hvx : getVuelo db x with _ | vx
      · rw [hvx] at hpair
        simp at hpair
      · rcases hvy : getVuelo db y with _ | vy
        · rw [hvx, hvy] at hpair
          simp at hpair
        · rw [hvx, hvy] at hpair
          simp only [Bool.and_eq_true, beq_iff_eq] at hpair
          have e1 : actualizar_bd true db y (some x) none = db :=
            actualizar_write_same db y _ _ vy hnd hvy
              (by rw [updEnlaces_ant, ← hpair.2])
          have e2 : actualizar_bd true db x none (some y) = db :=
            actualizar_write_same db x _ _ vx hnd hvx
              (by rw [updEnlaces_sig, ← hpair.1])
          apply ih (insertar_al_final true st0 y)
          · simp [insertar_al_final, hl, h0, e1, e2]
          · rw [insertar_final_chain, List.getLast?_concat]
            exact hrest

/-- `reordenar` with the current order is the identity on the whole state. -/
theorem reordenar_identidad (st : ListaVuelos)
    (hsize : st.size = st.chain.length)
    (hnd : (st.db.map (·.id)).Nodup)
    (hadj : adjFrom st.db none st.chain = true) :
    reordenar true st st.chain = (.ok (listar_todos st), st) := by
  have hpasa := reordenar_pasa true st st.chain hsize.symm (fun i hi => hi)
  have hdb : (st.chain.foldl (fun s i => insertar_al_final true s i)
      { st with chain := [], size := 0 }).db = st.db :=
    foldl_final_same_db st.db hnd st.chain _ rfl hadj
  have hchain : (st.chain.foldl (fun s i => insertar_al_final true s i)
      { st with chain := [], size := 0 }).chain = st.chain := by
    rw [foldl_final_chain]
    rfl
  have hsz : (st.chain.foldl (fun s i => insertar_al_final true s i)
      { st with chain := [], size := 0 }).size = st.size := by
    rw [foldl_final_size, hsize]
    simp
  have hstF : st.chain.foldl (fun s i => insertar_al_final true s i)
      { st with chain := [], size := 0 } = st :=
    ListaVuelos.ext _ st hchain hsz hdb
  rw [hpasa, hstF]

theorem insertar_frente_chain (wok : Bool) (st : ListaVuelos) (vid : Nat) :
    (insertar_al_frente wok st vid).chain = vid :: st.chain := by
  cases hchain : st.chain <;> simp [insertar_al_frente, hchain]

theorem bucle_cyc : ∀ fuel : Nat,
    bucleSiguientes [vueloCiclico] fuel (some 1) = none := by
  intro fuel
  induction fuel with
  | zero =>
    rw [bucle_step _ _ _ (by decide),
      show getVuelo [vueloCiclico] 1 = some vueloCiclico from rfl]
  | succ f ih =>
    rw [bucle_step _ _ _ (by decide),
      show getVuelo [vueloCiclico] 1 = some vueloCiclico from rfl]
    show (bucleSiguientes [vueloCiclico] f vueloCiclico.siguiente_id).map _ = none
    rw [show vueloCiclico.siguiente_id = some 1 from rfl, ih]
    rfl

/-! ## Per-commit failure: lemmas about the generalised operations -/

theorem insertar_frenteG_chain (w1 w2 : Bool) (st : ListaVuelos) (vid : Nat) :
    (insertar_al_frenteG w1 w2 st vid).chain = vid :: st.chain := by
  cases hchain : st.chain <;> simp [insertar_al_frenteG, hchain]

theorem insertar_frenteG_size (w1 w2 : Bool) (st : ListaVuelos) (vid : Nat) :
    (insertar_al_frenteG w1 w2 st vid).size = st.size + 1 := by
  cases hchain : st.chain <;> simp [insertar_al_frenteG, hchain]

theorem insertar_frenteG_db_false (st : ListaVuelos) (vid : Nat) :
    (insertar_al_frenteG false false st vid).db = st.db := by
  cases hchain : st.chain <;>
    simp [insertar_al_frenteG, hchain, actualizar_bd_false]

theorem insertar_finalG_chain (w1 w2 : Bool) (st : ListaVuelos) (vid : Nat) :
    (insertar_al_finalG w1 w2 st vid).chain = st.chain ++ [vid] := by
  rcases hl : st.chain.getLast? with _ | c
  · have he : st.chain = [] := List.getLast?_eq_none_iff.1 hl
    simp [insertar_al_finalG, hl, he]
  · simp [insertar_al_finalG, hl]

theorem insertar_finalG_size (w1 w2 : Bool) (st : ListaVuelos) (vid : Nat) :
    (insertar_al_finalG w1 w2 st vid).size = st.size + 1 := by
  rcases hl : st.chain.getLast? with _ | c <;> simp [insertar_al_finalG, hl]

theorem insertar_finalG_db_false (st : ListaVuelos) (vid : Nat) :
    (insertar_al_finalG false false st vid).db = st.db := by
  rcases hl : st.chain.getLast? with _ | c <;>
    simp [insertar_al_finalG, hl, actualizar_bd_false]

/-- The single-`wok` front insertion is the diagonal instance of the
per-commit version. -/
theorem insertar_frente_eq_G (wok : Bool) (st : ListaVuelos) (vid : Nat) :
    insertar_al_frente wok st vid = insertar_al_frenteG wok wok st vid := by
  cases hchain : st.chain <;>
    simp [insertar_al_frente, insertar_al_frenteG, hchain]

/-- The single-`wok` back insertion is the diagonal instance of the
per-commit version. -/
theorem insertar_final_eq_G (wok : Bool) (st : ListaVuelos) (vid : Nat) :
    insertar_al_final wok st vid = insertar_al_finalG wok wok st vid := by
  rcases hl : st.chain.getLast? with _ | c <;>
    simp [insertar_al_final, insertar_al_finalG, hl]

/-- The single-`wok` positional insertion is the diagonal instance of the
per-commit version. -/
theorem insertar_pos_eq_G (wok : Bool) (st : ListaVuelos) (vid : Nat)
    (p : Int) :
    insertar_en_posicion wok st vid p
      = insertar_en_posicionG wok wok wok st vid p := by
  rw [insertar_en_posicion, insertar_en_posicionG,
    insertar_frente_eq_G, insertar_final_eq_G]

/-- The single-`wok` extraction is the diagonal instance of the per-commit
version. -/
theorem extraer_eq_G (wok : Bool) (st : ListaVuelos) (p : Int) :
    extraer_de_posicion wok st p = extraer_de_posicionG wok wok wok st p := by
  rw [extraer_de_posicion, extraer_de_posicionG]

theorem foldFinalG_chain (w : Nat → Bool × Bool) (ids : List Nat) :
    ∀ (k : Nat) (st0 : ListaVuelos),
      (foldFinalG w k ids st0).chain = st0.chain ++ ids := by
  induction ids with
  | nil => intro k st0; simp [foldFinalG]
  | cons i rest ih =>
    intro k st0
    simp only [foldFinalG]
    rw [ih, insertar_finalG_chain]
    simp

theorem foldFinalG_size (w : Nat → Bool × Bool) (ids : List Nat) :
    ∀ (k : Nat) (st0 : ListaVuelos),
      (foldFinalG w k ids st0).size = st0.size + ids.length := by
  induction ids with
  | nil => intro k st0; simp [foldFinalG]
  | cons i rest ih =>
    intro k st0
    simp only [foldFinalG]
    rw [ih, insertar_finalG_size]
    simp only [List.length_cons]
    omega

theorem foldFinalG_db_false (ids : List Nat) :
    ∀ (k : Nat) (st0 : ListaVuelos),
      (foldFinalG (fun _ => (false, false)) k ids st0).db = st0.db := by
  induction ids with
  | nil => intro k st0; rfl
  | cons i rest ih =>
    intro k st0
    simp only [foldFinalG]
    rw [ih]
    exact insertar_finalG_db_false st0 i

theorem foldFinalG_diag (wok : Bool) (ids : List Nat) :
    ∀ (k : Nat) (st0 : ListaVuelos),
      foldFinalG (fun _ => (wok, wok)) k ids st0
        = ids.foldl (fun s i => insertar_al_final wok s i) st0 := by
  induction ids with
  | nil => intro k st0; rfl
  | cons i rest ih =>
    intro k st0
    simp only [foldFinalG, List.foldl_cons]
    rw [insertar_final_eq_G]
    exact ih (k + 1) _

/-- The single-`wok` reorder is the diagonal instance of the per-commit
version. -/
theorem reordenar_eq_G (wok : Bool) (st : ListaVuelos) (ids : List Nat) :
    reordenar wok st ids = reordenarG (fun _ => (wok, wok)) st ids := by
  rw [reordenar, reordenarG]
  simp only [foldFinalG_diag]

theorem insertar_posG_zero (w1 w2 w3 : Bool) (st : ListaVuelos) (vid : Nat) :
    insertar_en_posicionG w1 w2 w3 st vid 0
      = (.ok (), insertar_al_frenteG w1 w2 st vid) := by
  rw [insertar_en_posicionG, if_neg (by simp), if_pos (by simp)]

theorem insertar_posG_size (w1 w2 w3 : Bool) (st : ListaVuelos) (vid : Nat)
    (hpos : 0 < st.size) :
    insertar_en_posicionG w1 w2 w3 st vid (st.size : Int)
      = (.ok (), insertar_al_finalG w1 w2 st vid) := by
  rw [insertar_en_posicionG, if_neg (by simp), if_neg (by simp; omega),
    if_pos (by simp)]

theorem insertar_posG_mid (w1 w2 w3 : Bool) (st : ListaVuelos) (vid : Nat)
    (p : Int) (h0 : 0 < p) (hlt : p < (st.size : Int)) (a b : Nat)
    (hget1 : st.chain[p.toNat - 1]? = some a)
    (hget2 : st.chain[p.toNat]? = some b) :
    insertar_en_posicionG w1 w2 w3 st vid p
      = (.ok (), { chain := st.chain.insertIdx p.toNat vid
                   size := st.size + 1
                   db := actualizar_bd w3
                     (actualizar_bd w2
                       (actualizar_bd w1 st.db vid (some a) (some b))
                       a none (some vid))
                     b (some vid) none }) := by
  rw [insertar_en_posicionG, if_neg (by simp; omega), if_neg (by simp; omega),
    if_neg (by simp; omega)]
  simp only [hget1, hget2]

theorem extraerG_zero (w1 w2 w3 : Bool) (st : ListaVuelos) (r : Nat)
    (t : List Nat) (hchain : st.chain = r :: t) (hpos : 0 < st.size) :
    extraer_de_posicionG w1 w2 w3 st 0
      = (.ok ((getVuelo st.db r).getD default),
         { chain := t, size := st.size - 1, db := st.db }) := by
  rw [extraer_de_posicionG, if_neg (by simp; omega), if_pos (by simp), hchain]
  cases t <;> simp [actualizar_bd_noop]

theorem extraerG_last (w1 w2 w3 : Bool) (st : ListaVuelos) (p : Int)
    (hp : p = (st.size : Int) - 1) (hp0 : 0 < p) (r : Nat)
    (hlast : st.chain.getLast? = some r) :
    extraer_de_posicionG w1 w2 w3 st p
      = (.ok ((getVuelo st.db r).getD default),
         { chain := st.chain.dropLast, size := st.size - 1, db := st.db }) := by
  rw [extraer_de_posicionG, if_neg (by simp; omega), if_neg (by simp; omega),
    if_pos (by simp [hp])]
  rcases hd : st.chain.dropLast.getLast? with _ | c2 <;>
    simp [hlast, hd, actualizar_bd_noop]

theorem extraerG_mid (w1 w2 w3 : Bool) (st : ListaVuelos) (p : Int)
    (h0 : 0 < p) (hlt : p + 1 < (st.size : Int)) (a r b : Nat)
    (hget1 : st.chain[p.toNat - 1]? = some a)
    (hget2 : st.chain[p.toNat]? = some r)
    (hget3 : st.chain[p.toNat + 1]? = some b) :
    extraer_de_posicionG w1 w2 w3 st p
      = (.ok ((getVuelo (actualizar_bd w2
              (actualizar_bd w1 st.db a none (some b))
              b (some a) none) r).getD default),
         { chain := st.chain.eraseIdx p.toNat, size := st.size - 1
           db := actualizar_bd w2
             (actualizar_bd w1 st.db a none (some b))
             b (some a) none }) := by
  rw [extraer_de_posicionG, if_neg (by simp; omega), if_neg (by simp; omega),
    if_neg (by simp; omega)]
  simp only [hget1, hget2, hget3]
  rw [actualizar_bd_noop]

theorem reordenarG_pasa (w : Nat → Bool × Bool) (st : ListaVuelos)
    (ids : List Nat) (hlen : ids.length = st.size)
    (hall : ∀ i ∈ ids, i ∈ st.chain) :
    reordenarG w st ids
      = (.ok (listar_todos (foldFinalG w 0 ids
             { st with chain := [], size := 0 })),
         foldFinalG w 0 ids { st with chain := [], size := 0 }) := by
  rw [reordenarG, if_neg (by simp [hlen]), if_neg]
  simp only [Bool.not_eq_true', Bool.not_eq_false]
  rw [List.all_eq_true]
  intro i hi
  simpa using hall i hi

/-- With every commit failing, positional insertion leaves the store
untouched (in every branch, including the rejections). -/
theorem insertar_posG_db_false (st : ListaVuelos) (vid : Nat) (p : Int) :
    (insertar_en_posicionG false false false st vid p).2.db = st.db := by
  rw [insertar_en_posicionG]
  split
  · rfl
  · split
    · exact insertar_frenteG_db_false st vid
    · split
      · exact insertar_finalG_db_false st vid
      · rcases h1 : st.chain[p.toNat - 1]? with _ | a <;>
          rcases h2 : st.chain[p.toNat]? with _ | b <;>
            simp [h1, h2, actualizar_bd_false]

/-- With every commit failing, extraction leaves the store untouched. -/
theorem extraerG_db_false (st : ListaVuelos) (p : Int) :
    (extraer_de_posicionG false false false st p).2.db = st.db := by
  rw [extraer_de_posicionG]
  split
  · rfl
  · split
    · rcases hchain : st.chain with _ | ⟨r, t⟩
      · rfl
      · rcases t with _ | ⟨h2, t2⟩ <;> simp [actualizar_bd_false]
    · split
      · rcases hg : st.chain.getLast? with _ | r
        · rfl
        · rcases hg2 : st.chain.dropLast.getLast? with _ | c2 <;>
            simp [hg2, actualizar_bd_false]
      · rcases h1 : st.chain[p.toNat - 1]? with _ | a <;>
          rcases h2 : st.chain[p.toNat]? with _ | r <;>
            rcases h3 : st.chain[p.toNat + 1]? with _ | b <;>
              simp [h1, h2, h3, actualizar_bd_false]

/-- With every commit failing, reorder leaves the store untouched. -/
theorem reordenarG_db_false (st : ListaVuelos) (ids : List Nat) :
    (reordenarG (fun _ => (false, false)) st ids).2.db = st.db := by
  rw [reordenarG]
  split
  · rfl
  · split
    · rfl
    · exact foldFinalG_db_false ids 0 _

/-! ## The claims -/

/-- C1 counterexample: run the mutating sequence "insert A at the back, then
remove position 0" against the empty engine.  `listAll` of the resulting
engine is empty, but the store still contains A's row (positional extraction
never deletes rows and its link "resets" write nothing), so a fresh engine
running the Reconstruction Procedure on the resulting store lists [A]: the
round-trip claim fails for sequences that contain a removal. -/
theorem C1_contraejemplo :
    (let st := (extraer_de_posicion true
        ((runIns vacia [.back datoA]).getD vacia) 0).2
     (cargar_desde_bd st.db (st.db.length + 1)).map listar_todos
        ≠ some (listar_todos st)) := by
  decide

/-- C1 amended: for every sequence of successful insertion operations
(front / back / at-position, as issued by the API layer) starting from the
empty store, attaching a fresh engine to the resulting store state via the
Reconstruction Procedure reproduces the same `listAll()` order.  Sequences
containing removals or reorders do not satisfy the round-trip (see the
counterexample): extraction leaves the removed row in the store with stale
links, and both extraction and reorder leave persisted link fields that
should become absent unchanged. -/
theorem C1_teorema (ops : List OpIns) (st : ListaVuelos)
    (h : runIns vacia ops = some st) :
    ∃ st2, cargar_desde_bd st.db (st.db.length + 1) = some st2
      ∧ listar_todos st2 = listar_todos st :=
  ⟨st, cargar_espejo st (runIns_espejo ops vacia st espejo_vacia h), rfl⟩

theorem C1_testigo :
    ∃ st2, cargar_desde_bd ((runIns vacia
        [.back datoA, .front datoB, .atPos datoC 1]).getD vacia).db
      (((runIns vacia [.back datoA, .front datoB, .atPos datoC 1]).getD
          vacia).db.length + 1)
      = some st2
      ∧ listar_todos st2 = listar_todos ((runIns vacia
          [.back datoA, .front datoB, .atPos datoC 1]).getD vacia) :=
  C1_teorema [.back datoA, .front datoB, .atPos datoC 1] _ (by rfl)

/-- C2 counterexample: build the queue [A, C] by two back-insertions, then
remove position 0.  The operation completes, the head node is now the record
with id 2, but its persisted `anterior_id` still holds `some 1` (the removed
record): the claimed agreement between persisted link fields and the
in-memory chain is violated after a completed operation, because
`_actualizar_bd`'s not-`None` guard makes the `anterior_id=None` update a
no-op. -/
theorem C2_contraejemplo :
    (let st := (extraer_de_posicion true
        ((runIns vacia [.back datoA, .back datoC]).getD vacia) 0).2
     enlacesOk st = false
       ∧ (obtener_primero st).map (·.anterior_id) = some (some 1)) := by
  decide

/-- C2 amended: after every run consisting solely of successful insertions
starting from the empty store, the persisted link fields agree with the
in-memory chain: the head row's `anterior_id` is absent, the tail row's
`siguiente_id` is absent, and for every adjacent pair (A, B) A's row points
to B and B's row back to A (`enlacesOk`; the in-memory `B.prev == A` half is
representational in this embedding, the chain list encoding both
directions).  After a removal or a reorder the agreement can fail, since
`_actualizar_bd` can never persist an absent link. -/
theorem C2_teorema (ops : List OpIns) (st : ListaVuelos)
    (h : runIns vacia ops = some st) : enlacesOk st = true :=
  (runIns_espejo ops vacia st espejo_vacia h).2.2.2.2

theorem C2_testigo : enlacesOk ((runIns vacia
    [.back datoA, .front datoB, .atPos datoC 1]).getD vacia) = true :=
  C2_teorema [.back datoA, .front datoB, .atPos datoC 1] _ (by rfl)

/-- C4 counterexample: insert record 2 at the front of the one-record queue
with the store accepting the first commit (record 2's link write) but
refusing the second (record 1's `anterior_id` update — `session.commit()`
raises, `_actualizar_bd` rolls back and returns `False`, and the caller
discards that value).  The operation still completes: the in-memory chain
becomes [2, 1] with size 2, while the store is only partially updated —
record 2's persisted `siguiente_id` is now 1 but record 1's persisted
`anterior_id` is still absent, so the persisted links lag the in-memory
links — and the operation's result, the source's plain `return vuelo`,
carries no `StoreWriteFailure`.  Nothing is surfaced to the caller. -/
theorem C4_contraejemplo :
    (let st := (runIns vacia [.back datoA]).getD vacia
     let stA : ListaVuelos := { st with db := st.db ++ [nuevoVuelo st.db datoB] }
     let stF := insertar_al_frenteG true false stA 2
     stF.chain = [2, 1] ∧ stF.size = 2
       ∧ (getVuelo stF.db 2).map (·.siguiente_id) = some (some 1)
       ∧ (getVuelo stF.db 1).map (·.anterior_id) = some none) := by
  decide

/-- C4 amended: a failing Record Store write is swallowed, never surfaced:
`_actualizar_bd` catches the exception, rolls the session back and returns
`False`, and every caller discards that value.  For every mutating
operation — front insertion, back insertion, positional insertion,
positional extraction and reorder — and every combination of per-commit
outcomes, the operation completes exactly as on the success path in memory:
the chain and size are updated as usual and the ok/error verdict is the one
argument validation alone dictates (on in-range / well-formed arguments the
operation reports success whatever the store did).  The store receives only
the writes whose commit succeeded: if every commit fails it is left
unchanged, and if only some fail it is partially updated, the persisted
links lagging the in-memory chain (see the counterexample).  No
`StoreWriteFailure` — nor any other error — ever reaches the caller. -/
theorem C4_teorema (st : ListaVuelos) (vid : Nat) (p : Int) (ids : List Nat)
    (w1 w2 w3 : Bool) (w : Nat → Bool × Bool) :
    ((insertar_al_frenteG w1 w2 st vid).chain = vid :: st.chain
      ∧ (insertar_al_frenteG w1 w2 st vid).size = st.size + 1
      ∧ (insertar_al_frenteG false false st vid).db = st.db)
    ∧ ((insertar_al_finalG w1 w2 st vid).chain = st.chain ++ [vid]
      ∧ (insertar_al_finalG w1 w2 st vid).size = st.size + 1
      ∧ (insertar_al_finalG false false st vid).db = st.db)
    ∧ ((st.size = st.chain.length → 0 ≤ p → p ≤ (st.size : Int) →
          (insertar_en_posicionG w1 w2 w3 st vid p).1 = .ok ()
            ∧ (insertar_en_posicionG w1 w2 w3 st vid p).2.chain
                = st.chain.insertIdx p.toNat vid
            ∧ (insertar_en_posicionG w1 w2 w3 st vid p).2.size = st.size + 1)
      ∧ (insertar_en_posicionG false false false st vid p).2.db = st.db)
    ∧ ((st.size = st.chain.length → 0 ≤ p → p < (st.size : Int) →
          ∃ v, (extraer_de_posicionG w1 w2 w3 st p).1 = .ok v
            ∧ (extraer_de_posicionG w1 w2 w3 st p).2.chain
                = st.chain.eraseIdx p.toNat
            ∧ (extraer_de_posicionG w1 w2 w3 st p).2.size = st.size - 1)
      ∧ (extraer_de_posicionG false false false st p).2.db = st.db)
    ∧ ((ids.length = st.size → (∀ i ∈ ids, i ∈ st.chain) →
          ∃ l, (reordenarG w st ids).1 = .ok l
            ∧ (reordenarG w st ids).2.chain = ids
            ∧ (reordenarG w st ids).2.size = ids.length)
      ∧ (reordenarG (fun _ => (false, false)) st ids).2.db = st.db) := by
  refine ⟨⟨insertar_frenteG_chain w1 w2 st vid,
      insertar_frenteG_size w1 w2 st vid, insertar_frenteG_db_false st vid⟩,
    ⟨insertar_finalG_chain w1 w2 st vid, insertar_finalG_size w1 w2 st vid,
      insertar_finalG_db_false st vid⟩,
    ⟨?_, insertar_posG_db_false st vid p⟩,
    ⟨?_, extraerG_db_false st p⟩,
    ⟨?_, reordenarG_db_false st ids⟩⟩
  · intro hsize hp0 hple
    by_cases hz : p = 0
    · subst hz
      rw [insertar_posG_zero]
      refine ⟨rfl, ?_, insertar_frenteG_size w1 w2 st vid⟩
      rw [show ((0 : Int)).toNat = 0 from rfl, List.insertIdx_zero]
      exact insertar_frenteG_chain w1 w2 st vid
    · by_cases hsz : p = (st.size : Int)
      · have hpos : 0 < st.size := by omega
        rw [hsz, insertar_posG_size w1 w2 w3 st vid hpos]
        refine ⟨rfl, ?_, insertar_finalG_size w1 w2 st vid⟩
        rw [insertar_finalG_chain,
          show ((st.size : Int)).toNat = st.chain.length by omega]
        exact (List.insertIdx_length_self st.chain vid).symm
      · have h0 : (0 : Int) < p := by omega
        have hlt : p < (st.size : Int) := by omega
        have hb1 : p.toNat - 1 < st.chain.length := by omega
        have hb2 : p.toNat < st.chain.length := by omega
        have hg1 : st.chain[p.toNat - 1]? = some (st.chain.get ⟨p.toNat - 1, hb1⟩) :=
          List.getElem?_eq_getElem hb1
        have hg2 : st.chain[p.toNat]? = some (st.chain.get ⟨p.toNat, hb2⟩) :=
          List.getElem?_eq_getElem hb2
        rw [insertar_posG_mid w1 w2 w3 st vid p h0 hlt _ _ hg1 hg2]
        exact ⟨rfl, rfl, rfl⟩
  · intro hsize hp0 hplt
    by_cases hz : p = 0
    · subst hz
      rcases hchain : st.chain with _ | ⟨r, t⟩
      · exfalso
        rw [hchain] at hsize
        simp at hsize
        omega
      · rw [extraerG_zero w1 w2 w3 st r t hchain (by omega)]
        exact ⟨_, rfl, rfl, rfl⟩
    · by_cases hlast : p = (st.size : Int) - 1
      · have hp0' : (0 : Int) < p := by omega
        rcases hg : st.chain.getLast? with _ | r
        · exfalso
          rw [List.getLast?_eq_none_iff.1 hg] at hsize
          simp at hsize
          omega
        · rw [extraerG_last w1 w2 w3 st p hlast hp0' r hg]
          refine ⟨_, rfl, ?_, rfl⟩
          exact List.dropLast_eq_eraseIdx (by omega)
      · have h0 : (0 : Int) < p := by omega
        have hlt1 : p + 1 < (st.size : Int) := by omega
        have hb1 : p.toNat - 1 < st.chain.length := by omega
        have hb2 : p.toNat < st.chain.length := by omega
        have hb3 : p.toNat + 1 < st.chain.length := by omega
        have hg1 : st.chain[p.toNat - 1]? = some (st.chain.get ⟨p.toNat - 1, hb1⟩) :=
          List.getElem?_eq_getElem hb1
        have hg2 : st.chain[p.toNat]? = some (st.chain.get ⟨p.toNat, hb2⟩) :=
          List.getElem?_eq_getElem hb2
        have hg3 : st.chain[p.toNat + 1]? = some (st.chain.get ⟨p.toNat + 1, hb3⟩) :=
          List.getElem?_eq_getElem hb3
        rw [extraerG_mid w1 w2 w3 st p h0 hlt1 _ _ _ hg1 hg2 hg3]
        exact ⟨_, rfl, rfl, rfl⟩
  · intro hlen hall
    rw [reordenarG_pasa w st ids hlen hall]
    refine ⟨_, rfl, ?_, ?_⟩
    · rw [foldFinalG_chain]
      rfl
    · rw [foldFinalG_size]
      simp

theorem C4_testigo :
    (insertar_al_frenteG true false
        ((runIns vacia [.back datoA]).getD vacia) 5).chain
      = 5 :: ((runIns vacia [.back datoA]).getD vacia).chain
    ∧ (insertar_al_finalG false true
        ((runIns vacia [.back datoA]).getD vacia) 5).chain
      = ((runIns vacia [.back datoA]).getD vacia).chain ++ [5]
    ∧ (insertar_en_posicionG true false true
        ((runIns vacia [.back datoA]).getD vacia) 5 1).1 = .ok ()
    ∧ (∃ v, (extraer_de_posicionG false true false
        ((runIns vacia [.back datoA]).getD vacia) 0).1 = .ok v)
    ∧ (∃ l, (reordenarG (fun k => (k == 0, false))
        ((runIns vacia [.back datoA]).getD vacia) [1]).1 = .ok l) := by
  refine ⟨(C4_teorema _ 5 1 [1] true false true (fun k => (k == 0, false))).1.1,
    (C4_teorema _ 5 1 [1] false true true (fun k => (k == 0, false))).2.1.1,
    ((C4_teorema _ 5 1 [1] true false true
        (fun k => (k == 0, false))).2.2.1.1
      (by decide) (by decide) (by decide)).1,
    ?_, ?_⟩
  · rcases (C4_teorema ((runIns vacia [.back datoA]).getD vacia) 5 0 [1]
        false true false (fun k => (k == 0, false))).2.2.2.1.1
        (by decide) (by decide) (by decide) with ⟨v, h1, h2, h3⟩
    exact ⟨v, h1⟩
  · rcases (C4_teorema ((runIns vacia [.back datoA]).getD vacia) 5 0 [1]
        false true false (fun k => (k == 0, false))).2.2.2.2.1
        (by decide) (by decide) with ⟨l, h1, h2, h3⟩
    exact ⟨l, h1⟩

/-- C9 counterexample: on the store holding the single record with id 1
whose `siguiente_id` points to itself, the reconstruction walk never meets
an absent or missing id, so `_cargar_desde_bd` does not terminate — no
amount of loop unfolding (`fuel`) completes it.  The claim "terminates for
every finite store state" is false. -/
theorem C9_contraejemplo :
    ¬ ∃ (fuel : Nat) (st2 : ListaVuelos),
        cargar_desde_bd [vueloCiclico] fuel = some st2 := by
  rintro ⟨fuel, st2, h⟩
  simp only [cargar_desde_bd] at h
  rw [show (([vueloCiclico].find? (fun v => v.anterior_id == none)).getD
      vueloCiclico).siguiente_id = some 1 from rfl, bucle_cyc fuel] at h
  simp at h

/-- C9 amended: the walk terminates for every finite store state in which it
does not revisit a record — formally, whenever the ids visited in the first
`|db| + 1` iterations from the selected head are pairwise distinct (by
pigeonhole, a walk over distinct stored ids must stop within `|db|`
steps).  On termination `size` equals the number of Nodes created (the chain
length) and `cola` is the last Node reached.  A cyclic `siguiente_id` chain
(see the counterexample) makes the walk non-terminating. -/
theorem C9_teorema (db : List Vuelo)
    (hnd : ∀ v, cabezaSeleccionada db = some v →
      (trazaSiguientes db (db.length + 1) v.siguiente_id).Nodup) :
    ∃ st2, cargar_desde_bd db (db.length + 1) = some st2
      ∧ st2.size = st2.chain.length
      ∧ cola st2 = st2.chain.getLast? := by
  cases db with
  | nil => exact ⟨⟨[], 0, []⟩, rfl, rfl, rfl⟩
  | cons v0 rest0 =>
    have hsel : cabezaSeleccionada (v0 :: rest0)
        = some (((v0 :: rest0).find? (fun v => v.anterior_id == none)).getD v0) :=
      rfl
    have hnd2 := hnd _ hsel
    rcases bucle_terminates_of_nodup (v0 :: rest0) _ hnd2 with ⟨l, hl⟩
    refine ⟨⟨(((v0 :: rest0).find? (fun v => v.anterior_id == none)).getD v0).id :: l,
      1 + l.length, v0 :: rest0⟩, ?_, by simp [Nat.add_comm], rfl⟩
    simp only [cargar_desde_bd]
    rw [hl]

theorem C9_testigo :
    ∃ st2, cargar_desde_bd
        [⟨1, "A", .programado, 0, "X", "Y", none, none, some 2⟩,
         ⟨2, "B", .programado, 0, "X", "Y", none, some 1, none⟩]
        ([⟨1, "A", .programado, 0, "X", "Y", none, none, some 2⟩,
          (⟨2, "B", .programado, 0, "X", "Y", none, some 1, none⟩ : Vuelo)].length + 1)
      = some st2
      ∧ st2.size = st2.chain.length
      ∧ cola st2 = st2.chain.getLast? :=
  C9_teorema _ (by decide)

/-- C5: `reordenar` with any permutation of the current id set succeeds;
afterwards `listAll()` equals the ids mapped to their records and the call
returns exactly that sequence; and when the ids already equal the current
order the call is the identity on the entire state, so `listAll()` is
unchanged.  The hypotheses are the well-formedness facts the engine
maintains: `size` is the chain length, every chained id has a stored row,
store ids are unique, and (for the idempotence part) the persisted adjacency
links match the chain. -/
theorem C5_teorema (st : ListaVuelos) (ids : List Nat)
    (hsize : st.size = st.chain.length)
    (hpres : ∀ i ∈ st.chain, (getVuelo st.db i).isSome)
    (hnd : (st.db.map (·.id)).Nodup)
    (hperm : List.Perm ids st.chain) :
    (∃ stF, reordenar true st ids = (.ok (listar_todos stF), stF)
      ∧ stF.chain = ids
      ∧ listar_todos stF = ids.map (fun i => (getVuelo stF.db i).getD default))
    ∧ (ids = st.chain → adjFrom st.db none st.chain = true →
        reordenar true st ids = (.ok (listar_todos st), st)) := by
  constructor
  · rcases reordenar_exito st ids hpres
      (by rw [hperm.length_eq, hsize]) (fun i hi => hperm.subset hi) with
      ⟨stF, h1, h2, _, h4⟩
    exact ⟨stF, h1, h2, h4⟩
  · intro hid hadj
    subst hid
    exact reordenar_identidad st hsize hnd hadj

theorem C5_testigo :
    (∃ stF, reordenar true ((runIns vacia
          [.back datoA, .back datoB, .back datoC]).getD vacia) [3, 1, 2]
        = (.ok (listar_todos stF), stF)
      ∧ stF.chain = [3, 1, 2]
      ∧ listar_todos stF
          = [3, 1, 2].map (fun i => (getVuelo stF.db i).getD default))
    ∧ ([3, 1, 2] = ((runIns vacia
          [.back datoA, .back datoB, .back datoC]).getD vacia).chain →
        adjFrom ((runIns vacia
          [.back datoA, .back datoB, .back datoC]).getD vacia).db none
          ((runIns vacia
            [.back datoA, .back datoB, .back datoC]).getD vacia).chain = true →
        reordenar true ((runIns vacia
            [.back datoA, .back datoB, .back datoC]).getD vacia) [3, 1, 2]
          = (.ok (listar_todos ((runIns vacia
               [.back datoA, .back datoB, .back datoC]).getD vacia)),
             (runIns vacia [.back datoA, .back datoB, .back datoC]).getD vacia)) :=
  C5_teorema _ [3, 1, 2] (by decide) (by decide) (by decide) (by decide)

/-- C6: the create-and-enqueue endpoint inserts the freshly created record
at the front exactly when its status is Emergency and at the back otherwise;
in particular inserting A (Scheduled), B (Emergency), C (Scheduled) in that
call order from the empty engine yields `listAll() == [B, A, C]`. -/
theorem C6_teorema :
    (∀ (st : ListaVuelos) (d : VueloData),
      (d.estado = .emergencia →
        ((agregar_vuelo true st d).2).chain = freshId st.db :: st.chain)
      ∧ (d.estado ≠ .emergencia →
        ((agregar_vuelo true st d).2).chain = st.chain ++ [freshId st.db]))
    ∧ (listar_todos (agregar_vuelo true (agregar_vuelo true
          (agregar_vuelo true vacia datoA).2 datoB).2 datoC).2).map (·.codigo)
        = ["B", "A", "C"]
    ∧ ((agregar_vuelo true (agregar_vuelo true
          (agregar_vuelo true vacia datoA).2 datoB).2 datoC).2).chain
        = [2, 1, 3] := by
  refine ⟨?_, by decide, by decide⟩
  intro st d
  constructor
  · intro he
    simp [agregar_vuelo, he, insertar_frente_chain, nuevoVuelo]
  · intro hne
    simp [agregar_vuelo, hne, insertar_final_chain, nuevoVuelo]

theorem C6_testigo :
    ((agregar_vuelo true vacia datoB).2).chain
        = freshId vacia.db :: vacia.chain
      ∧ ((agregar_vuelo true vacia datoA).2).chain
        = vacia.chain ++ [freshId vacia.db] :=
  ⟨(C6_teorema.1 vacia datoB).1 rfl, (C6_teorema.1 vacia datoA).2 (by decide)⟩

/-- C7 counterexample: on the empty queue `obtener_primero` and
`obtener_ultimo` return `None` — a plain value which the API layer turns
into a 404 — instead of failing with the `OwnEmpty` (EmptyQueue) exception;
`OwnEmpty` is declared in exceptions.py but never raised anywhere. -/
theorem C7_contraejemplo :
    obtener_primero vacia = none ∧ obtener_ultimo vacia = none :=
  ⟨rfl, rfl⟩

/-- C7 amended: whenever `size == 0` the peek operations return absent
(`None`) rather than raising `OwnEmpty`; whenever `size > 0` they return the
record at the head / tail of the list (the first / last element of
`listAll()`) without mutating anything — in this embedding they do not even
produce a state, matching the read-only source. -/
theorem C7_teorema (st : ListaVuelos)
    (hsize : st.size = st.chain.length)
    (hpres : ∀ i ∈ st.chain, (getVuelo st.db i).isSome) :
    (st.size = 0 → obtener_primero st = none ∧ obtener_ultimo st = none)
      ∧ (0 < st.size →
          obtener_primero st = (listar_todos st).head?
          ∧ obtener_ultimo st = (listar_todos st).getLast?
          ∧ (obtener_primero st).isSome ∧ (obtener_ultimo st).isSome) := by
  constructor
  · intro h0
    have hchain : st.chain = [] := List.length_eq_zero.1 (by omega)
    simp [obtener_primero, obtener_ultimo, hchain]
  · intro hpos
    have hne : st.chain ≠ [] := by
      intro he
      rw [he] at hsize
      simp at hsize
      omega
    have hmap : listar_todos st
        = st.chain.map (fun i => (getVuelo st.db i).getD default) :=
      filterMap_eq_map_getD _ _ hpres
    rcases hc : st.chain with _ | ⟨h1, t⟩
    · exact absurd hc hne
    · have hp1 := hpres h1 (by rw [hc]; exact List.mem_cons_self _ _)
      rcases hg1 : getVuelo st.db h1 with _ | v1
      · rw [hg1] at hp1
        simp at hp1
      · rcases hl : (h1 :: t).getLast? with _ | c
        · rcases List.getLast?_eq_none_iff.1 hl
        · have hcm : c ∈ st.chain := by
            rw [hc]
            exact List.mem_of_mem_getLast? hl
          have hpc := hpres c hcm
          rcases hgc : getVuelo st.db c with _ | vc
          · rw [hgc] at hpc
            simp at hpc
          · have e1 : obtener_primero st = some v1 := by
              rw [obtener_primero, hc]
              simpa using hg1
            have e2 : obtener_ultimo st = some vc := by
              rw [obtener_ultimo, hc, hl]
              simpa using hgc
            refine ⟨?_, ?_, by simp [e1], by simp [e2]⟩
            · rw [e1, hmap, hc]
              simp [hg1]
            · rw [e2, hmap, hc, List.getLast?_map, hl]
              simp [hgc]

theorem C7_testigo :
    (let st := (runIns vacia [.back datoA]).getD vacia
     (st.size = 0 → obtener_primero st = none ∧ obtener_ultimo st = none)
       ∧ (0 < st.size →
           obtener_primero st = (listar_todos st).head?
           ∧ obtener_ultimo st = (listar_todos st).getLast?
           ∧ (obtener_primero st).isSome ∧ (obtener_ultimo st).isSome)) :=
  C7_teorema _ (by decide) (by decide)

/-- C8: every invalid argument is rejected with the corresponding typed
error before any mutation: `insertar_en_posicion` with a position outside
[0, size], `extraer_de_posicion` with a position outside [0, size-1],
`reordenar` with an id count different from `size`, and `reordenar` with an
id not present in the queue all return the matching `ValueError` paired with
the engine state exactly as it was (chain, head, tail, size and store all
unchanged: the second component is `st` itself). -/
theorem C8_teorema (st : ListaVuelos) (vid : Nat) (p : Int) (ids : List Nat)
    (i0 : Nat) :
    ((p < 0 ∨ (st.size : Int) < p) →
      insertar_en_posicion true st vid p = (.error .posicionFueraDeRango, st))
    ∧ ((p < 0 ∨ (st.size : Int) ≤ p) →
      extraer_de_posicion true st p = (.error .posicionFueraDeRango, st))
    ∧ (ids.length ≠ st.size →
      reordenar true st ids = (.error .cantidadNoCoincide, st))
    ∧ (ids.length = st.size → i0 ∈ ids → i0 ∉ st.chain →
      reordenar true st ids = (.error .idNoExiste, st)) :=
  ⟨fun h => insertar_pos_out true st vid p h,
   fun h => extraer_out true st p h,
   fun h => reordenar_len true st ids h,
   fun h1 h2 h3 => reordenar_unknown true st ids h1 i0 h2 h3⟩

theorem C8_testigo :
    insertar_en_posicion true ((runIns vacia [.back datoA]).getD vacia)
        9 (-1)
      = (.error .posicionFueraDeRango, (runIns vacia [.back datoA]).getD vacia)
    ∧ extraer_de_posicion true ((runIns vacia [.back datoA]).getD vacia) 5
      = (.error .posicionFueraDeRango, (runIns vacia [.back datoA]).getD vacia)
    ∧ reordenar true ((runIns vacia [.back datoA]).getD vacia) []
      = (.error .cantidadNoCoincide, (runIns vacia [.back datoA]).getD vacia)
    ∧ reordenar true ((runIns vacia [.back datoA]).getD vacia) [7]
      = (.error .idNoExiste, (runIns vacia [.back datoA]).getD vacia) :=
  ⟨(C8_teorema _ 9 (-1) [] 7).1 (by decide),
   (C8_teorema _ 9 5 [] 7).2.1 (by decide),
   (C8_teorema _ 9 5 [] 7).2.2.1 (by decide),
   (C8_teorema _ 9 5 [7] 7).2.2.2 (by decide) (by decide) (by decide)⟩

/-- C10: `reordenar`'s validation does not require a permutation — any id
list of the right length whose members are all present passes, duplicates
included: the chain is rebuilt with the same record occupying multiple
positions and `listAll()` equals the list mapped to records. -/
theorem C10_teorema (st : ListaVuelos) (ids : List Nat)
    (hpres : ∀ i ∈ st.chain, (getVuelo st.db i).isSome)
    (hlen : ids.length = st.size)
    (hall : ∀ i ∈ ids, i ∈ st.chain) :
    ∃ stF, reordenar true st ids = (.ok (listar_todos stF), stF)
      ∧ stF.chain = ids
      ∧ listar_todos stF = ids.map (fun i => (getVuelo stF.db i).getD default) := by
  rcases reordenar_exito st ids hpres hlen hall with ⟨stF, h1, h2, _, h4⟩
  exact ⟨stF, h1, h2, h4⟩

theorem C10_testigo :
    ∃ stF, reordenar true ((runIns vacia
          [.back datoA, .back datoB, .back datoC]).getD vacia) [2, 2, 3]
        = (.ok (listar_todos stF), stF)
      ∧ stF.chain = [2, 2, 3]
      ∧ listar_todos stF
          = [2, 2, 3].map (fun i => (getVuelo stF.db i).getD default) :=
  C10_teorema _ [2, 2, 3] (by decide) (by decide) (by decide)

/-- C3 counterexample: on the queue [A, C] (ids 1 and 2, doubly linked in
the store), `extraer_de_posicion 0` removes record 1 — but record 1's
persisted `siguiente_id` still holds `some 2` afterwards, and the new head's
persisted `anterior_id` still holds `some 1`: neither the removed record's
link fields nor the neighbor's `anterior_id` are set to absent, because
`_actualizar_bd` ignores `None` arguments. -/
theorem C3_contraejemplo :
    (let st := (extraer_de_posicion true
        ((runIns vacia [.back datoA, .back datoC]).getD vacia) 0).2
     (getVuelo st.db 1).map (·.siguiente_id) = some (some 2)
       ∧ (getVuelo st.db 2).map (·.anterior_id) = some (some 1)) := by
  decide

/-- C3 amended: for every well-formed queue and every position in
[0, size-1], `extraer_de_posicion` removes and returns the record at that
index, the chain becomes the old chain with that index erased and `size`
drops by one, and the persistence effects are exactly: for an interior
position the two neighbours' adjacent link fields are updated
(`a.siguiente_id := b`, `b.anterior_id := a`); for the boundary positions
the store is completely unchanged; and in every case the removed record's
own persisted link fields keep their old values — they are never reset to
absent (the claimed resets are no-ops). -/
theorem C3_teorema (st : ListaVuelos) (p : Int)
    (hsize : st.size = st.chain.length) (hndc : st.chain.Nodup)
    (hpres : ∀ i ∈ st.chain, (getVuelo st.db i).isSome)
    (h0 : 0 ≤ p) (hlt : p < (st.size : Int)) :
    ∃ rid v st2,
      st.chain[p.toNat]? = some rid
      ∧ getVuelo st.db rid = some v
      ∧ extraer_de_posicion true st p = (.ok v, st2)
      ∧ st2.chain = st.chain.eraseIdx p.toNat
      ∧ st2.size = st.size - 1
      ∧ getVuelo st2.db rid = some v
      ∧ ((p = 0 ∨ p = (st.size : Int) - 1) → st2.db = st.db)
      ∧ (0 < p → p + 1 < (st.size : Int) →
          ∃ a b va vb,
            st.chain[p.toNat - 1]? = some a ∧ st.chain[p.toNat + 1]? = some b
            ∧ getVuelo st.db a = some va ∧ getVuelo st.db b = some vb
            ∧ getVuelo st2.db a = some { va with siguiente_id := some b }
            ∧ getVuelo st2.db b = some { vb with anterior_id := some a }) := by
  by_cases hz : p = 0
  · -- removal of the head
    subst hz
    rcases hc : st.chain with _ | ⟨rid, t⟩
    · rw [hc] at hsize
      simp at hsize
      omega
    · have hmem : rid ∈ st.chain := by
        rw [hc]
        exact List.mem_cons_self _ _
      have hp := hpres rid hmem
      rcases hv : getVuelo st.db rid with _ | v
      · rw [hv] at hp
        simp at hp
      · refine ⟨rid, v, ⟨t, st.size - 1, st.db⟩, by simp, hv, ?_,
          rfl, rfl, hv, fun _ => rfl, ?_⟩
        · rw [extraer_zero true st rid t hc (by omega), hv]
          rfl
        · intro hfalse _
          omega
  · -- p > 0
    by_cases hlast : p = (st.size : Int) - 1
    · -- removal of the tail (size ≥ 2 here)
      rcases hl : st.chain.getLast? with _ | rid
      · have : st.chain = [] := List.getLast?_eq_none_iff.1 hl
        rw [this] at hsize
        simp at hsize
        omega
      · have hmem : rid ∈ st.chain := List.mem_of_mem_getLast? hl
        have hp := hpres rid hmem
        rcases hv : getVuelo st.db rid with _ | v
        · rw [hv] at hp
          simp at hp
        · have hpn : p.toNat + 1 = st.chain.length := by omega
          refine ⟨rid, v, ⟨st.chain.dropLast, st.size - 1, st.db⟩, ?_, hv, ?_,
            ?_, rfl, hv, fun _ => rfl, ?_⟩
          · rw [show p.toNat = st.chain.length - 1 by omega,
              ← List.getLast?_eq_getElem?]
            exact hl
          · rw [extraer_last true st p hlast (by omega) rid hl, hv]
            rfl
          · show st.chain.dropLast = _
            rw [List.dropLast_eq_eraseIdx hpn]
          · intro _ hfalse
            omega
    · -- interior removal
      have h0s : 0 < p := by omega
      have hlts : p + 1 < (st.size : Int) := by omega
      have hpn1 : 1 ≤ p.toNat := by omega
      have hpnlt : p.toNat + 1 < st.chain.length := by rw [← hsize]; omega
      rcases list_decomp3 st.chain p.toNat hpn1 hpnlt with
        ⟨l1, a, rid, b, l2, hchain, hl1⟩
      have hpe : p.toNat = l1.length + 1 := by omega
      have hget1 : st.chain[p.toNat - 1]? = some a := by
        rw [hchain, show p.toNat - 1 = l1.length by omega]
        exact getElem?_after l1 a (rid :: b :: l2)
      have hget2 : st.chain[p.toNat]? = some rid := by
        rw [hchain, hpe]
        exact getElem?_after1 l1 a rid (b :: l2)
      have hget3 : st.chain[p.toNat + 1]? = some b := by
        rw [hchain, show p.toNat + 1 = l1.length + 2 by omega]
        exact getElem?_after2 l1 a rid b l2
      -- distinctness of a, rid, b
      have hndc2 : (l1 ++ a :: rid :: b :: l2).Nodup := hchain ▸ hndc
      have hnd3 : (a :: rid :: b :: l2).Nodup := (List.nodup_append.1 hndc2).2.1
      have hra : rid ≠ a := by
        intro he
        exact (List.nodup_cons.1 hnd3).1
          (he ▸ List.mem_cons_self rid (b :: l2))
      have hrb : rid ≠ b := by
        intro he
        exact (List.nodup_cons.1 (List.nodup_cons.1 hnd3).2).1
          (he ▸ List.mem_cons_self b l2)
      have hab : a ≠ b := by
        intro he
        apply (List.nodup_cons.1 hnd3).1
        rw [he]
        exact List.mem_cons_of_mem _ (List.mem_cons_self b l2)
      -- the three rows
      have hamem : a ∈ st.chain := by rw [hchain]; simp
      have hrmem : rid ∈ st.chain := by rw [hchain]; simp
      have hbmem : b ∈ st.chain := by rw [hchain]; simp
      have hpa := hpres a hamem
      have hpr := hpres rid hrmem
      have hpb := hpres b hbmem
      rcases hva : getVuelo st.db a with _ | va
      · rw [hva] at hpa
        simp at hpa
      rcases hvr : getVuelo st.db rid with _ | v
      · rw [hvr] at hpr
        simp at hpr
      rcases hvb : getVuelo st.db b with _ | vb
      · rw [hvb] at hpb
        simp at hpb
      have hrow_r : getVuelo (actualizar_bd true
          (actualizar_bd true st.db a none (some b)) b (some a) none) rid
          = some v := by
        rw [getVuelo_actualizar_ne true _ _ _ hrb,
          getVuelo_actualizar_ne true _ _ _ hra, hvr]
      have hrow_a : getVuelo (actualizar_bd true
          (actualizar_bd true st.db a none (some b)) b (some a) none) a
          = some { va with siguiente_id := some b } := by
        rw [getVuelo_actualizar_ne true _ _ _ hab,
          getVuelo_actualizar_self, hva]
        rfl
      have hrow_b : getVuelo (actualizar_bd true
          (actualizar_bd true st.db a none (some b)) b (some a) none) b
          = some { vb with anterior_id := some a } := by
        rw [getVuelo_actualizar_self,
          getVuelo_actualizar_ne true _ _ _ (Ne.symm hab), hvb]
        rfl
      refine ⟨rid, v, ⟨st.chain.eraseIdx p.toNat, st.size - 1,
        actualizar_bd true (actualizar_bd true st.db a none (some b))
          b (some a) none⟩, hget2, hvr, ?_, rfl, rfl, hrow_r, ?_, ?_⟩
      · rw [extraer_mid true st p h0s hlts a rid b hget1 hget2 hget3, hrow_r]
        rfl
      · intro hcase
        exfalso
        omega
      · intro _ _
        exact ⟨a, b, va, vb, hget1, hget3, hva, hvb, hrow_a, hrow_b⟩

theorem C3_testigo :
    ∃ rid v st2,
      ((runIns vacia [.back datoA, .back datoB, .back datoC]).getD
          vacia).chain[(1 : Int).toNat]? = some rid
      ∧ getVuelo ((runIns vacia
          [.back datoA, .back datoB, .back datoC]).getD vacia).db rid = some v
      ∧ extraer_de_posicion true ((runIns vacia
          [.back datoA, .back datoB, .back datoC]).getD vacia) 1 = (.ok v, st2)
      ∧ st2.chain = ((runIns vacia
          [.back datoA, .back datoB, .back datoC]).getD
            vacia).chain.eraseIdx (1 : Int).toNat
      ∧ st2.size = ((runIns vacia
          [.back datoA, .back datoB, .back datoC]).getD vacia).size - 1
      ∧ getVuelo st2.db rid = some v
      ∧ (((1 : Int) = 0 ∨ (1 : Int) = (((runIns vacia
            [.back datoA, .back datoB, .back datoC]).getD
              vacia).size : Int) - 1) →
          st2.db = ((runIns vacia
            [.back datoA, .back datoB, .back datoC]).getD vacia).db)
      ∧ ((0 : Int) < 1 → (1 : Int) + 1 < (((runIns vacia
            [.back datoA, .back datoB, .back datoC]).getD
              vacia).size : Int) →
          ∃ a b va vb,
            ((runIns vacia [.back datoA, .back datoB, .back datoC]).getD
                vacia).chain[(1 : Int).toNat - 1]? = some a
            ∧ ((runIns vacia [.back datoA, .back datoB, .back datoC]).getD
                vacia).chain[(1 : Int).toNat + 1]? = some b
            ∧ getVuelo ((runIns vacia
                [.back datoA, .back datoB, .back datoC]).getD vacia).db a
                = some va
            ∧ getVuelo ((runIns vacia
                [.back datoA, .back datoB, .back datoC]).getD vacia).db b
                = some vb
            ∧ getVuelo st2.db a = some { va with siguiente_id := some b }
            ∧ getVuelo st2.db b = some { vb with anterior_id := some a }) :=
  C3_teorema _ 1 (by decide) (by decide) (by decide) (by decide) (by decide)

end Tarea2
